import Mathlib

/-!
Verification of the address model of flow/network.cpp (FoundationDB).

The development shallowly embeds the code of src/flow/network.cpp:

* `IPAddress` — 16-byte store plus a v4/v6 discriminant, with the equality,
  ordering, construction and text operations of the source.
* `NetworkAddress` — an `IPAddress` plus port and flags, with `parse`,
  `parseList` and `toString` translated from the source; the struct layout
  (16-bit port, flags bits) is modelled from the spec because flow/network.h
  is not part of the fragment.
* the candidate-selection step of `INetworkConnections::connect`.

Text is modelled as `List Char` (accessed through `String.data` at the
API boundary).  Machine integers are `Nat`/`Int` with explicit reductions
modulo 2^16 and 2^32 where the code narrows.  Fallible operations return
`Option` or `Except FlowErr`; the distinct `FlowErr` constructors separate
the `connection_string_invalid` error of the source from the exceptions that
`std::stoi` can raise out of the bracketed branch.

The IPv6/IPv4 textual grammar of `boost::asio` (used by `IPAddress::parse`
and `IPAddress::toString`) is third-party code that is not part of the
repository; those two functions are modelled from the wording of the spec
(standard dotted-quad, colon-hex with `::` compression of the longest zero
run, lowercase hex).
-/

/-- Character class of C `isdigit`: the decimal digits `0`..`9`. -/
def isDigitChar (c : Char) : Bool :=
  decide (48 ≤ c.toNat ∧ c.toNat ≤ 57)

/-- Character class of C `isspace`: space, tab, newline, vertical tab, form feed, carriage return. -/
def isSpaceChar (c : Char) : Bool :=
  decide (c.toNat = 32 ∨ (9 ≤ c.toNat ∧ c.toNat ≤ 13))

/-- Value of a decimal digit character. -/
def digitVal (c : Char) : Nat := c.toNat - 48

/-- Decimal digit character for a value below ten. -/
def decDigitChar : Nat → Char
  | 0 => '0'
  | 1 => '1'
  | 2 => '2'
  | 3 => '3'
  | 4 => '4'
  | 5 => '5'
  | 6 => '6'
  | 7 => '7'
  | 8 => '8'
  | _ => '9'

/-- Value of a big-endian string of decimal digit characters. -/
def decValList : List Char → Nat
  | [] => 0
  | c :: rest => digitVal c * 10 ^ rest.length + decValList rest

/-- Lowercase hexadecimal digit character for a value below sixteen. -/
def hexDigitChar : Nat → Char
  | 0 => '0'
  | 1 => '1'
  | 2 => '2'
  | 3 => '3'
  | 4 => '4'
  | 5 => '5'
  | 6 => '6'
  | 7 => '7'
  | 8 => '8'
  | 9 => '9'
  | 10 => 'a'
  | 11 => 'b'
  | 12 => 'c'
  | 13 => 'd'
  | 14 => 'e'
  | _ => 'f'

/-- Value of a hexadecimal digit character, accepting both cases; `none` on other characters. -/
def hexDigitVal (c : Char) : Option Nat :=
  if 48 ≤ c.toNat ∧ c.toNat ≤ 57 then some (c.toNat - 48)
  else if 97 ≤ c.toNat ∧ c.toNat ≤ 102 then some (c.toNat - 87)
  else if 65 ≤ c.toNat ∧ c.toNat ≤ 70 then some (c.toNat - 55)
  else none

/-- Value of a big-endian string of hexadecimal digit characters. -/
def hexValList : List Char → Nat
  | [] => 0
  | c :: rest => (hexDigitVal c).getD 0 * 16 ^ rest.length + hexValList rest

/-- Fuel-driven big-endian decimal printer (the digit loop of `%d` formatting). -/
def natDecAux : Nat → Nat → List Char
  | 0, _ => []
  | fuel + 1, n => if n = 0 then [] else natDecAux fuel (n / 10) ++ [decDigitChar (n % 10)]

/-- Decimal text of a natural number, as printed by `format("%d", n)`. -/
def natDec (n : Nat) : List Char :=
  if n = 0 then ['0'] else natDecAux (n + 1) n

/-- Fuel-driven big-endian lowercase hexadecimal printer. -/
def natHexAux : Nat → Nat → List Char
  | 0, _ => []
  | fuel + 1, n => if n = 0 then [] else natHexAux fuel (n / 16) ++ [hexDigitChar (n % 16)]

/-- Lowercase hexadecimal text of a natural number with no leading zeros. -/
def natToHex (n : Nat) : List Char :=
  if n = 0 then ['0'] else natHexAux (n + 1) n

theorem decDigitChar_isDigit (d : Nat) (h : d < 10) : isDigitChar (decDigitChar d) = true := by
  interval_cases d <;> decide

theorem decDigitChar_val (d : Nat) (h : d < 10) : digitVal (decDigitChar d) = d := by
  interval_cases d <;> decide

theorem hexDigitChar_val (d : Nat) (h : d < 16) : hexDigitVal (hexDigitChar d) = some d := by
  interval_cases d <;> decide

theorem hexDigitChar_isSomeVal (d : Nat) (h : d < 16) : (hexDigitVal (hexDigitChar d)).isSome = true := by
  rw [hexDigitChar_val d h]; rfl

theorem isDigitChar_ne_of_not {c x : Char} (h : isDigitChar c = true) (hx : isDigitChar x = false) :
    c ≠ x := by
  intro he; rw [he] at h; rw [h] at hx; cases hx

theorem hexDigitVal_lt {c : Char} {d : Nat} (h : hexDigitVal c = some d) : d < 16 := by
  unfold hexDigitVal at h
  split at h
  · rename_i h1; injection h with h2; omega
  · split at h
    · rename_i h1; injection h with h2; omega
    · split at h
      · rename_i h1; injection h with h2; omega
      · cases h

theorem hexDigitVal_ne_colon {c : Char} (h : (hexDigitVal c).isSome = true) : c ≠ ':' := by
  intro he; rw [he] at h; cases h

theorem hexDigitVal_ne_rbracket {c : Char} (h : (hexDigitVal c).isSome = true) : c ≠ ']' := by
  intro he; rw [he] at h; cases h

theorem decValList_append_digit (ds : List Char) (c : Char) :
    decValList (ds ++ [c]) = decValList ds * 10 + digitVal c := by
  induction ds with
  | nil => simp [decValList]
  | cons x rest ih =>
    show decValList (x :: (rest ++ [c])) = _
    rw [decValList, ih, List.length_append, List.length_cons, List.length_nil, decValList,
      pow_succ]
    ring

theorem hexValList_append_digit (ds : List Char) (c : Char) :
    hexValList (ds ++ [c]) = hexValList ds * 16 + (hexDigitVal c).getD 0 := by
  induction ds with
  | nil => simp [hexValList]
  | cons x rest ih =>
    show hexValList (x :: (rest ++ [c])) = _
    rw [hexValList, ih, List.length_append, List.length_cons, List.length_nil, hexValList,
      pow_succ]
    ring

theorem natDecAux_val (fuel n : Nat) (h : n < fuel) : decValList (natDecAux fuel n) = n := by
  induction fuel generalizing n with
  | zero => omega
  | succ fuel ih =>
    unfold natDecAux
    by_cases h0 : n = 0
    · simp [h0, decValList]
    · rw [if_neg h0, decValList_append_digit, ih (n / 10) (by omega),
        decDigitChar_val (n % 10) (by omega)]
      omega

theorem natDec_val (n : Nat) : decValList (natDec n) = n := by
  unfold natDec
  by_cases h0 : n = 0
  · simp [h0, decValList, digitVal]
  · rw [if_neg h0, natDecAux_val (n + 1) n (by omega)]

theorem natHexAux_val (fuel n : Nat) (h : n < fuel) : hexValList (natHexAux fuel n) = n := by
  induction fuel generalizing n with
  | zero => omega
  | succ fuel ih =>
    unfold natHexAux
    by_cases h0 : n = 0
    · simp [h0, hexValList]
    · rw [if_neg h0, hexValList_append_digit, ih (n / 16) (by omega),
        hexDigitChar_val (n % 16) (by omega)]
      simp only [Option.getD_some]
      omega

theorem natToHex_val (n : Nat) : hexValList (natToHex n) = n := by
  unfold natToHex
  by_cases h0 : n = 0
  · simp [h0, hexValList, hexDigitVal]
  · rw [if_neg h0, natHexAux_val (n + 1) n (by omega)]

theorem natDecAux_mem_digit (fuel n : Nat) {c : Char} (hc : c ∈ natDecAux fuel n) :
    isDigitChar c = true := by
  induction fuel generalizing n with
  | zero => cases hc
  | succ fuel ih =>
    unfold natDecAux at hc
    by_cases h0 : n = 0
    · rw [if_pos h0] at hc; cases hc
    · rw [if_neg h0] at hc
      rcases List.mem_append.mp hc with h1 | h1
      · exact ih (n / 10) h1
      · rcases List.mem_singleton.mp h1 with rfl
        exact decDigitChar_isDigit (n % 10) (by omega)

theorem natDec_mem_digit (n : Nat) {c : Char} (hc : c ∈ natDec n) : isDigitChar c = true := by
  unfold natDec at hc
  by_cases h0 : n = 0
  · rw [if_pos h0] at hc; rcases List.mem_singleton.mp hc with rfl; decide
  · rw [if_neg h0] at hc; exact natDecAux_mem_digit (n + 1) n hc

theorem natHexAux_mem_hex (fuel n : Nat) {c : Char} (hc : c ∈ natHexAux fuel n) :
    (hexDigitVal c).isSome = true := by
  induction fuel generalizing n with
  | zero => cases hc
  | succ fuel ih =>
    unfold natHexAux at hc
    by_cases h0 : n = 0
    · rw [if_pos h0] at hc; cases hc
    · rw [if_neg h0] at hc
      rcases List.mem_append.mp hc with h1 | h1
      · exact ih (n / 16) h1
      · rcases List.mem_singleton.mp h1 with rfl
        exact hexDigitChar_isSomeVal (n % 16) (by omega)

theorem natToHex_mem_hex (n : Nat) {c : Char} (hc : c ∈ natToHex n) :
    (hexDigitVal c).isSome = true := by
  unfold natToHex at hc
  by_cases h0 : n = 0
  · rw [if_pos h0] at hc; rcases List.mem_singleton.mp hc with rfl; decide
  · rw [if_neg h0] at hc; exact natHexAux_mem_hex (n + 1) n hc

theorem natDec_ne_nil (n : Nat) : natDec n ≠ [] := by
  unfold natDec
  by_cases h0 : n = 0
  · rw [if_pos h0]; simp
  · rw [if_neg h0]
    unfold natDecAux
    rw [if_neg h0]
    simp

theorem natToHex_ne_nil (n : Nat) : natToHex n ≠ [] := by
  unfold natToHex
  by_cases h0 : n = 0
  · rw [if_pos h0]; simp
  · rw [if_neg h0]
    unfold natHexAux
    rw [if_neg h0]
    simp

theorem natHexAux_length (fuel n k : Nat) (h : n < fuel) (hk : n < 16 ^ k) :
    (natHexAux fuel n).length ≤ k := by
  induction fuel generalizing n k with
  | zero => omega
  | succ fuel ih =>
    unfold natHexAux
    by_cases h0 : n = 0
    · simp [h0]
    · rw [if_neg h0]
      have hk1 : 1 ≤ k := by
        by_contra hlt
        have : k = 0 := by omega
        rw [this] at hk; simp at hk; omega
      have hdiv : n / 16 < 16 ^ (k - 1) := by
        have h16 : 16 ^ k = 16 ^ (k - 1) * 16 := by
          conv_lhs => rw [show k = (k - 1) + 1 by omega]
          rw [pow_succ]
        rw [h16] at hk
        omega
      have := ih (n / 16) (k - 1) (by omega) hdiv
      simp only [List.length_append, List.length_cons, List.length_nil]
      omega

theorem natToHex_length (n : Nat) (h : n < 65536) : (natToHex n).length ≤ 4 := by
  unfold natToHex
  by_cases h0 : n = 0
  · simp [h0]
  · rw [if_neg h0]
    exact natHexAux_length (n + 1) n 4 (by omega) (by norm_num; omega)

theorem hexValList_lt (ds : List Char) (h : ∀ c ∈ ds, (hexDigitVal c).isSome = true) :
    hexValList ds < 16 ^ ds.length := by
  induction ds with
  | nil => simp [hexValList]
  | cons c rest ih =>
    have hc := h c (List.mem_cons_self c rest)
    have hd : (hexDigitVal c).getD 0 < 16 := by
      rcases Option.isSome_iff_exists.mp hc with ⟨d, hd⟩
      rw [hd]; simpa using hexDigitVal_lt hd
    have hrest := ih (fun x hx => h x (List.mem_cons_of_mem c hx))
    simp only [hexValList, List.length_cons, pow_succ]
    have h1 : (hexDigitVal c).getD 0 * 16 ^ rest.length ≤ 15 * 16 ^ rest.length :=
      Nat.mul_le_mul_right _ (by omega)
    omega

/-- Splits a character list at every occurrence of the separator, keeping empty pieces. -/
def splitOnChar (sep : Char) : List Char → List (List Char)
  | [] => [[]]
  | a :: rest =>
    if a = sep then [] :: splitOnChar sep rest
    else (a :: (splitOnChar sep rest).headD []) :: (splitOnChar sep rest).tail

/-- Joins pieces with a single separator character between adjacent pieces. -/
def joinSep (sep : Char) : List (List Char) → List Char
  | [] => []
  | [p] => p
  | p :: q :: rest => p ++ sep :: joinSep sep (q :: rest)

theorem splitOnChar_ne_nil (sep : Char) (l : List Char) : splitOnChar sep l ≠ [] := by
  cases l with
  | nil => simp [splitOnChar]
  | cons a rest =>
    simp only [splitOnChar]
    by_cases h : a = sep
    · simp [h]
    · simp [h]

theorem splitOnChar_no_sep (sep : Char) (p : List Char) (hp : sep ∉ p) :
    splitOnChar sep p = [p] := by
  induction p with
  | nil => rfl
  | cons a rest ih =>
    have ha : a ≠ sep := fun h => hp (h ▸ List.mem_cons_self a rest)
    have hrest : sep ∉ rest := fun h => hp (List.mem_cons_of_mem a h)
    simp only [splitOnChar, if_neg ha, ih hrest]
    rfl

theorem splitOnChar_append_sep (sep : Char) (p l : List Char) (hp : sep ∉ p) :
    splitOnChar sep (p ++ sep :: l) = p :: splitOnChar sep l := by
  induction p with
  | nil => simp [splitOnChar]
  | cons a rest ih =>
    have ha : a ≠ sep := fun h => hp (h ▸ List.mem_cons_self a rest)
    have hrest : sep ∉ rest := fun h => hp (List.mem_cons_of_mem a h)
    show splitOnChar sep (a :: (rest ++ sep :: l)) = _
    simp only [splitOnChar, if_neg ha, ih hrest]
    rfl

theorem splitOnChar_joinSep (sep : Char) (pieces : List (List Char)) (hne : pieces ≠ [])
    (hp : ∀ p ∈ pieces, sep ∉ p) :
    splitOnChar sep (joinSep sep pieces) = pieces := by
  induction pieces with
  | nil => cases hne rfl
  | cons p rest ih =>
    cases rest with
    | nil =>
      show splitOnChar sep (joinSep sep [p]) = [p]
      rw [joinSep]
      exact splitOnChar_no_sep sep p (hp p (List.mem_cons_self p []))
    | cons q rest2 =>
      rw [joinSep, splitOnChar_append_sep sep p _ (hp p (List.mem_cons_self p _)),
        ih (by simp) (fun x hx => hp x (List.mem_cons_of_mem p hx))]

theorem mem_joinSep {sep : Char} {c : Char} {pieces : List (List Char)}
    (hc : c ∈ joinSep sep pieces) : c = sep ∨ ∃ p ∈ pieces, c ∈ p := by
  induction pieces with
  | nil => cases hc
  | cons p rest ih =>
    cases rest with
    | nil =>
      rw [joinSep] at hc
      exact Or.inr ⟨p, List.mem_cons_self p [], hc⟩
    | cons q rest2 =>
      rw [joinSep] at hc
      rcases List.mem_append.mp hc with h1 | h1
      · exact Or.inr ⟨p, List.mem_cons_self p _, h1⟩
      · rcases List.mem_cons.mp h1 with h2 | h2
        · exact Or.inl h2
        · rcases ih h2 with h3 | ⟨x, hx1, hx2⟩
          · exact Or.inl h3
          · exact Or.inr ⟨x, List.mem_cons_of_mem p hx1, hx2⟩

theorem sep_mem_joinSep (sep : Char) (p q : List Char) (rest : List (List Char)) :
    sep ∈ joinSep sep (p :: q :: rest) := by
  rw [joinSep]
  exact List.mem_append.mpr (Or.inr (List.mem_cons_self sep _))

theorem joinSep_head_ne_nil {sep : Char} {p : List Char} {rest : List (List Char)}
    (hp : p ≠ []) : joinSep sep (p :: rest) ≠ [] := by
  cases rest with
  | nil => rw [joinSep]; exact hp
  | cons q rest2 =>
    rw [joinSep]
    intro h
    rcases List.append_eq_nil.mp h with ⟨h1, _⟩
    exact hp h1

theorem joinSep_head? {sep : Char} {p : List Char} {rest : List (List Char)} (hp : p ≠ []) :
    (joinSep sep (p :: rest)).head? = p.head? := by
  cases rest with
  | nil => rw [joinSep]
  | cons q rest2 =>
    rw [joinSep]
    cases p with
    | nil => cases hp rfl
    | cons a p2 => rfl

/-- Finds the first occurrence of two adjacent colons, returning the text before and after it. -/
def findDC : List Char → Option (List Char × List Char)
  | [] => none
  | c :: rest =>
    if c = ':' ∧ rest.head? = some ':' then some ([], rest.tail)
    else (findDC rest).map (fun p => (c :: p.1, p.2))

theorem findDC_append_free (p l : List Char) (hp : (':' : Char) ∉ p) :
    findDC (p ++ l) = (findDC l).map (fun pr => (p ++ pr.1, pr.2)) := by
  induction p with
  | nil => simp
  | cons a rest ih =>
    have ha : a ≠ ':' := fun h => hp (h ▸ List.mem_cons_self a rest)
    have hrest : (':' : Char) ∉ rest := fun h => hp (List.mem_cons_of_mem a h)
    show findDC (a :: (rest ++ l)) = _
    rw [findDC, if_neg (fun hcon => ha hcon.1), ih hrest]
    cases findDC l with
    | none => rfl
    | some pr => rfl

/-- Number of leading zero groups of a group list. -/
def leadZeros : List Nat → Nat
  | [] => 0
  | g :: t => if g = 0 then leadZeros t + 1 else 0

theorem leadZeros_le (l : List Nat) : leadZeros l ≤ l.length := by
  induction l with
  | nil => simp [leadZeros]
  | cons g t ih =>
    simp only [leadZeros, List.length_cons]
    by_cases h : g = 0
    · rw [if_pos h]; omega
    · rw [if_neg h]; omega

theorem leadZeros_spec (l : List Nat) :
    l = List.replicate (leadZeros l) 0 ++ l.drop (leadZeros l) := by
  induction l with
  | nil => rfl
  | cons g t ih =>
    simp only [leadZeros]
    by_cases h : g = 0
    · rw [if_pos h, List.replicate_succ, List.cons_append, List.drop_succ_cons, h]
      exact congrArg _ ih
    · rw [if_neg h]
      rfl

/-- Longest run of zero groups, leftmost on ties: returns (start index, length).
Modelled from the spec: the canonical IPv6 text compresses the longest zero run
with ties broken by the leftmost run. -/
def bestRun : List Nat → Nat × Nat
  | [] => (0, 0)
  | g :: t =>
    if (bestRun t).2 ≤ leadZeros (g :: t) then (0, leadZeros (g :: t))
    else ((bestRun t).1 + 1, (bestRun t).2)

theorem bestRun_sound (gs : List Nat) :
    (bestRun gs).2 = leadZeros (gs.drop (bestRun gs).1) ∧ (bestRun gs).1 ≤ gs.length := by
  induction gs with
  | nil => simp [bestRun, leadZeros]
  | cons g t ih =>
    simp only [bestRun]
    by_cases h : (bestRun t).2 ≤ leadZeros (g :: t)
    · rw [if_pos h]
      simp
    · rw [if_neg h]
      simp only [List.drop_succ_cons, List.length_cons]
      exact ⟨ih.1, by omega⟩

/-- Canonical compressed IPv6 text of eight 16-bit groups, modelled from the spec:
lowercase hexadecimal groups joined by colons, with the longest zero run
(leftmost on ties, only runs of length at least two) compressed to a double colon. -/
def canonGroups (gs : List Nat) : List Char :=
  if 2 ≤ (bestRun gs).2 then
    joinSep ':' ((gs.take (bestRun gs).1).map natToHex) ++ ':' :: ':' ::
      joinSep ':' ((gs.drop ((bestRun gs).1 + (bestRun gs).2)).map natToHex)
  else joinSep ':' (gs.map natToHex)

/-- A colon-hex group: one to four hexadecimal digit characters. -/
def parseHexGroup (cs : List Char) : Option Nat :=
  if cs ≠ [] ∧ cs.length ≤ 4 ∧ cs.all (fun c => (hexDigitVal c).isSome) then some (hexValList cs)
  else none

/-- Parses every piece as a hex group; `none` as soon as one piece fails. -/
def mapParseHex : List (List Char) → Option (List Nat)
  | [] => some []
  | p :: rest =>
    match parseHexGroup p, mapParseHex rest with
    | some g, some gs => some (g :: gs)
    | _, _ => none

/-- Assembles the groups on the two sides of a double colon, the compression
standing for at least one zero group. -/
def assembleV6 : Option (List Nat) → Option (List Nat) → Option (List Nat)
  | some l, some r =>
    if l.length + r.length ≤ 7 then
      some (l ++ List.replicate (8 - (l.length + r.length)) 0 ++ r)
    else none
  | _, _ => none

/-- Modelled from the spec: standard colon-hex IPv6 text parsing; eight groups,
or a single double colon standing for the missing zero groups. -/
def parseV6Chars (cs : List Char) : Option (List Nat) :=
  match findDC cs with
  | none =>
    if (splitOnChar ':' cs).length = 8 then mapParseHex (splitOnChar ':' cs) else none
  | some (before, after) =>
    assembleV6 (if before = [] then some [] else mapParseHex (splitOnChar ':' before))
      (if after = [] then some [] else mapParseHex (splitOnChar ':' after))

theorem parseHexGroup_natToHex (n : Nat) (h : n < 65536) :
    parseHexGroup (natToHex n) = some n := by
  unfold parseHexGroup
  rw [if_pos, natToHex_val]
  refine ⟨natToHex_ne_nil n, natToHex_length n h, ?_⟩
  rw [List.all_eq_true]
  intro c hc
  exact natToHex_mem_hex n hc

theorem parseHexGroup_lt {p : List Char} {g : Nat} (h : parseHexGroup p = some g) : g < 65536 := by
  unfold parseHexGroup at h
  split at h
  · rename_i hcond
    injection h with h2
    have := hexValList_lt p (by
      intro c hc
      have := hcond.2.2
      rw [List.all_eq_true] at this
      exact this c hc)
    have hle : (16 : Nat) ^ p.length ≤ 16 ^ 4 :=
      Nat.pow_le_pow_right (by omega) hcond.2.1
    omega
  · cases h

theorem mapParseHex_natToHex (l : List Nat) (h : ∀ g ∈ l, g < 65536) :
    mapParseHex (l.map natToHex) = some l := by
  induction l with
  | nil => rfl
  | cons g rest ih =>
    rw [List.map_cons, mapParseHex,
      parseHexGroup_natToHex g (h g (List.mem_cons_self g rest)),
      ih (fun x hx => h x (List.mem_cons_of_mem g hx))]

theorem mapParseHex_length {ps : List (List Char)} {gs : List Nat}
    (h : mapParseHex ps = some gs) : gs.length = ps.length := by
  induction ps generalizing gs with
  | nil => rw [mapParseHex] at h; injection h with h2; rw [← h2]; rfl
  | cons p rest ih =>
    rw [mapParseHex] at h
    cases hp : parseHexGroup p with
    | none => rw [hp] at h; cases h
    | some g =>
      cases hr : mapParseHex rest with
      | none => rw [hp, hr] at h; cases h
      | some gs2 =>
        rw [hp, hr] at h
        injection h with h2
        rw [← h2, List.length_cons, List.length_cons, ih hr]

theorem mapParseHex_bound {ps : List (List Char)} {gs : List Nat}
    (h : mapParseHex ps = some gs) : ∀ g ∈ gs, g < 65536 := by
  induction ps generalizing gs with
  | nil =>
    rw [mapParseHex] at h; injection h with h2; rw [← h2]
    intro g hg; cases hg
  | cons p rest ih =>
    rw [mapParseHex] at h
    cases hp : parseHexGroup p with
    | none => rw [hp] at h; cases h
    | some g =>
      cases hr : mapParseHex rest with
      | none => rw [hp, hr] at h; cases h
      | some gs2 =>
        rw [hp, hr] at h
        injection h with h2
        rw [← h2]
        intro x hx
        rcases List.mem_cons.mp hx with rfl | h3
        · exact parseHexGroup_lt hp
        · exact ih hr x h3

theorem natToHex_colon_free (n : Nat) : (':' : Char) ∉ natToHex n := by
  intro h
  have := natToHex_mem_hex n h
  simp [hexDigitVal] at this

theorem hexPieces_ok (l : List Nat) : ∀ p ∈ l.map natToHex, p ≠ [] ∧ (':' : Char) ∉ p := by
  intro p hp
  rcases List.mem_map.mp hp with ⟨g, _, rfl⟩
  exact ⟨natToHex_ne_nil g, natToHex_colon_free g⟩

theorem findDC_joinSep_none (pieces : List (List Char))
    (h : ∀ p ∈ pieces, p ≠ [] ∧ (':' : Char) ∉ p) :
    findDC (joinSep ':' pieces) = none := by
  induction pieces with
  | nil => rfl
  | cons p rest ih =>
    cases rest with
    | nil =>
      rw [joinSep]
      have := findDC_append_free p [] (h p (List.mem_cons_self p [])).2
      rw [List.append_nil] at this
      rw [this]
      rfl
    | cons q rest2 =>
      rw [joinSep, findDC_append_free p _ (h p (List.mem_cons_self p _)).2]
      have hq := h q (List.mem_cons_of_mem p (List.mem_cons_self q rest2))
      rw [findDC]
      have hhead : (joinSep ':' (q :: rest2)).head? ≠ some ':' := by
        rw [joinSep_head? hq.1]
        cases q with
        | nil => cases hq.1 rfl
        | cons c q2 =>
          simp only [List.head?_cons, ne_eq, Option.some.injEq]
          intro hc
          exact hq.2 (hc ▸ List.mem_cons_self c q2)
      rw [if_neg (fun hcon => hhead hcon.2),
        ih (fun x hx => h x (List.mem_cons_of_mem p hx))]
      rfl

theorem findDC_joinSep_compress (pre : List (List Char)) (B : List Char)
    (h : ∀ p ∈ pre, p ≠ [] ∧ (':' : Char) ∉ p) :
    findDC (joinSep ':' pre ++ ':' :: ':' :: B) = some (joinSep ':' pre, B) := by
  induction pre with
  | nil =>
    rw [joinSep, List.nil_append, findDC, if_pos ⟨rfl, rfl⟩]
    rfl
  | cons p rest ih =>
    cases rest with
    | nil =>
      rw [joinSep, findDC_append_free p _ (h p (List.mem_cons_self p [])).2, findDC,
        if_pos ⟨rfl, rfl⟩]
      simp
    | cons q rest2 =>
      rw [joinSep, List.append_assoc, List.cons_append,
        findDC_append_free p _ (h p (List.mem_cons_self p _)).2, findDC]
      have hq := h q (List.mem_cons_of_mem p (List.mem_cons_self q rest2))
      have hhead : (joinSep ':' (q :: rest2) ++ ':' :: ':' :: B).head? ≠ some ':' := by
        have hne := @joinSep_head_ne_nil ':' q rest2 hq.1
        cases hj : joinSep ':' (q :: rest2) with
        | nil => cases hne hj
        | cons c j2 =>
          simp only [List.cons_append, List.head?_cons, ne_eq, Option.some.injEq]
          intro hc
          have : c ∈ joinSep ':' (q :: rest2) := by rw [hj]; exact List.mem_cons_self c j2
          rcases mem_joinSep this with h1 | ⟨x, hx1, hx2⟩
          · have hhq : (joinSep ':' (q :: rest2)).head? = q.head? := joinSep_head? hq.1
            rw [hj] at hhq
            cases q with
            | nil => exact hq.1 rfl
            | cons d q2 =>
              simp only [List.head?_cons, Option.some.injEq] at hhq
              exact hq.2 ((hhq ▸ hc) ▸ List.mem_cons_self d q2)
          · have hhq : (joinSep ':' (q :: rest2)).head? = q.head? := joinSep_head? hq.1
            rw [hj] at hhq
            cases q with
            | nil => exact hq.1 rfl
            | cons d q2 =>
              simp only [List.head?_cons, Option.some.injEq] at hhq
              exact hq.2 ((hhq ▸ hc) ▸ List.mem_cons_self d q2)
      rw [if_neg (fun hcon => hhead hcon.2),
        ih (fun x hx => h x (List.mem_cons_of_mem p hx))]
      rfl

theorem hexSide_eval (l : List Nat) (hb : ∀ g ∈ l, g < 65536) :
    (if joinSep ':' (l.map natToHex) = [] then some ([] : List Nat)
     else mapParseHex (splitOnChar ':' (joinSep ':' (l.map natToHex)))) = some l := by
  cases l with
  | nil => rfl
  | cons g rest =>
    have hne : joinSep ':' ((g :: rest).map natToHex) ≠ [] := by
      rw [List.map_cons]
      exact joinSep_head_ne_nil (natToHex_ne_nil g)
    rw [if_neg hne,
      splitOnChar_joinSep ':' _ (by simp) (fun p hp => (hexPieces_ok _ p hp).2),
      mapParseHex_natToHex _ hb]

theorem parseV6_canon (gs : List Nat) (hlen : gs.length = 8) (hb : ∀ g ∈ gs, g < 65536) :
    parseV6Chars (canonGroups gs) = some gs := by
  have hsound := bestRun_sound gs
  by_cases h2 : 2 ≤ (bestRun gs).2
  · have hbile : (bestRun gs).1 ≤ gs.length := hsound.2
    have hblval : (bestRun gs).2 = leadZeros (gs.drop (bestRun gs).1) := hsound.1
    have hbl_le : (bestRun gs).2 ≤ gs.length - (bestRun gs).1 := by
      rw [hblval]
      have := leadZeros_le (gs.drop (bestRun gs).1)
      rw [List.length_drop] at this
      omega
    have hcanon : canonGroups gs =
        joinSep ':' ((gs.take (bestRun gs).1).map natToHex) ++ ':' :: ':' ::
          joinSep ':' ((gs.drop ((bestRun gs).1 + (bestRun gs).2)).map natToHex) := by
      unfold canonGroups
      rw [if_pos h2]
    have hfind := findDC_joinSep_compress ((gs.take (bestRun gs).1).map natToHex)
      (joinSep ':' ((gs.drop ((bestRun gs).1 + (bestRun gs).2)).map natToHex))
      (hexPieces_ok _)
    rw [hcanon]
    have hbg := hexSide_eval (gs.take (bestRun gs).1)
      (fun g hg => hb g (List.take_subset _ gs hg))
    have hag := hexSide_eval (gs.drop ((bestRun gs).1 + (bestRun gs).2))
      (fun g hg => hb g (List.drop_subset _ gs hg))
    simp only [parseV6Chars, hfind, hbg, hag, assembleV6]
    have hltake : (gs.take (bestRun gs).1).length = (bestRun gs).1 := by
      rw [List.length_take]
      omega
    have hldrop : (gs.drop ((bestRun gs).1 + (bestRun gs).2)).length =
        gs.length - ((bestRun gs).1 + (bestRun gs).2) := List.length_drop _ _
    have hsum : (gs.take (bestRun gs).1).length +
        (gs.drop ((bestRun gs).1 + (bestRun gs).2)).length = 8 - (bestRun gs).2 := by
      rw [hltake, hldrop]
      omega
    rw [if_pos (by omega)]
    have hfinal : gs.take (bestRun gs).1 ++
        List.replicate (8 - ((gs.take (bestRun gs).1).length +
          (gs.drop ((bestRun gs).1 + (bestRun gs).2)).length)) 0 ++
        gs.drop ((bestRun gs).1 + (bestRun gs).2) = gs := by
      rw [hsum]
      have h8 : 8 - (8 - (bestRun gs).2) = (bestRun gs).2 := by omega
      rw [h8, List.append_assoc]
      conv_rhs => rw [← List.take_append_drop (bestRun gs).1 gs]
      congr 1
      have hspec := leadZeros_spec (gs.drop (bestRun gs).1)
      rw [← hblval, List.drop_drop] at hspec
      exact hspec.symm
    rw [hfinal]
  · have hcanon : canonGroups gs = joinSep ':' (gs.map natToHex) := by
      unfold canonGroups
      rw [if_neg h2]
    have hgs_ne : gs ≠ [] := by
      intro h
      rw [h] at hlen
      cases hlen
    have hmap_ne : gs.map natToHex ≠ [] := by
      intro h
      exact hgs_ne (List.map_eq_nil_iff.mp h)
    have hfind := findDC_joinSep_none (gs.map natToHex) (hexPieces_ok gs)
    have hsplit := splitOnChar_joinSep ':' (gs.map natToHex) hmap_ne
      (fun p hp => (hexPieces_ok _ p hp).2)
    rw [hcanon]
    simp only [parseV6Chars, hfind, hsplit]
    rw [if_pos (by rw [List.length_map, hlen]), mapParseHex_natToHex gs hb]

/-- Big-endian bytes of a list of 16-bit groups (boost `address_v6::to_bytes` layout). -/
def groupsToBytes : List Nat → List Nat
  | [] => []
  | g :: rest => g / 256 % 256 :: g % 256 :: groupsToBytes rest

/-- 16-bit groups of a list of bytes, two bytes per group, big-endian. -/
def bytesToGroups : List Nat → List Nat
  | b0 :: b1 :: rest => (b0 * 256 + b1) :: bytesToGroups rest
  | _ => []

theorem bytesToGroups_groupsToBytes (gs : List Nat) (h : ∀ g ∈ gs, g < 65536) :
    bytesToGroups (groupsToBytes gs) = gs := by
  induction gs with
  | nil => rfl
  | cons g rest ih =>
    have hg := h g (List.mem_cons_self g rest)
    rw [groupsToBytes, bytesToGroups, ih (fun x hx => h x (List.mem_cons_of_mem g hx))]
    congr 1
    omega

theorem groupsToBytes_length (gs : List Nat) : (groupsToBytes gs).length = 2 * gs.length := by
  induction gs with
  | nil => rfl
  | cons g rest ih =>
    rw [groupsToBytes, List.length_cons, List.length_cons, ih, List.length_cons]
    omega

theorem groupsToBytes_bound (gs : List Nat) : ∀ b ∈ groupsToBytes gs, b < 256 := by
  induction gs with
  | nil => intro b hb; cases hb
  | cons g rest ih =>
    intro b hb
    rw [groupsToBytes] at hb
    rcases List.mem_cons.mp hb with rfl | hb2
    · omega
    · rcases List.mem_cons.mp hb2 with rfl | hb3
      · omega
      · exact ih b hb3

/-- IPAddress of flow/network.cpp: a discriminant telling whether the value is
an IPv6 address, plus the byte store (a 16-byte array in the source). -/
structure IPAddress where
  isV6addr : Bool
  store : List Nat
deriving DecidableEq

/-- IPAddress::IPAddress(uint32_t v4addr): v4 value stored in the first four
bytes of the store, remaining bytes zero.  Modelled from the spec: the four
bytes hold the 32-bit value in network byte order equivalent layout. -/
def IPAddress.fromV4 (n : Nat) : IPAddress :=
  ⟨false, [n / 16777216 % 256, n / 65536 % 256, n / 256 % 256, n % 256] ++ List.replicate 12 0⟩

/-- IPAddress::IPAddress(const IPAddressStore&): v6 value storing all 16 bytes verbatim. -/
def IPAddress.fromV6 (bytes : List Nat) : IPAddress :=
  ⟨true, bytes⟩

/-- IPAddress::isV6. -/
def IPAddress.isV6 (a : IPAddress) : Bool := a.isV6addr

/-- IPAddress::toV4: the 32-bit value reconstructed from the first four bytes. -/
def IPAddress.toV4 (a : IPAddress) : Nat :=
  match a.store with
  | b0 :: b1 :: b2 :: b3 :: _ => b0 * 16777216 + b1 * 65536 + b2 * 256 + b3
  | _ => 0

theorem toV4_fromV4 (n : Nat) (h : n < 4294967296) : (IPAddress.fromV4 n).toV4 = n := by
  unfold IPAddress.fromV4 IPAddress.toV4
  simp only [List.cons_append]
  omega

/-- Lexicographic strict comparison of byte stores (std::array operator<). -/
def lexLtBytes : List Nat → List Nat → Bool
  | _, [] => false
  | [], _ :: _ => true
  | a :: as, b :: bs => if a < b then true else if b < a then false else lexLtBytes as bs

/-- IPAddress::operator<: family first (v4 before v6), then lexicographic on the store. -/
def IPAddress.lt (a b : IPAddress) : Bool :=
  if a.isV6addr = b.isV6addr then lexLtBytes a.store b.store else !a.isV6addr && b.isV6addr

theorem lexLtBytes_irrefl (l : List Nat) : lexLtBytes l l = false := by
  induction l with
  | nil => rfl
  | cons a rest ih =>
    rw [lexLtBytes, if_neg (by omega), if_neg (by omega), ih]

theorem lexLtBytes_trans {a b c : List Nat} (h1 : lexLtBytes a b = true)
    (h2 : lexLtBytes b c = true) : lexLtBytes a c = true := by
  induction a generalizing b c with
  | nil =>
    cases c with
    | nil =>
      cases b with
      | nil => cases h1
      | cons y ys => cases h2
    | cons z zs => rfl
  | cons x xs ih =>
    cases b with
    | nil => cases h1
    | cons y ys =>
      cases c with
      | nil => cases h2
      | cons z zs =>
        rw [lexLtBytes] at h1 h2 ⊢
        by_cases hxy : x < y
        · rw [if_pos hxy] at h1
          by_cases hyz : y < z
          · rw [if_pos (by omega)]
          · rw [if_neg hyz] at h2
            by_cases hzy : z < y
            · rw [if_pos hzy] at h2; cases h2
            · rw [if_pos (by omega)]
        · rw [if_neg hxy] at h1
          by_cases hyx : y < x
          · rw [if_pos hyx] at h1; cases h1
          · rw [if_neg hyx] at h1
            by_cases hyz : y < z
            · rw [if_pos hyz] at h2
              rw [if_pos (by omega)]
            · rw [if_neg hyz] at h2
              by_cases hzy : z < y
              · rw [if_pos hzy] at h2; cases h2
              · rw [if_neg hzy] at h2
                rw [if_neg (by omega), if_neg (by omega)]
                exact ih h1 h2

theorem lexLtBytes_total {a b : List Nat} (h : a.length = b.length) :
    lexLtBytes a b = true ∨ a = b ∨ lexLtBytes b a = true := by
  induction a generalizing b with
  | nil =>
    cases b with
    | nil => exact Or.inr (Or.inl rfl)
    | cons y ys => cases h
  | cons x xs ih =>
    cases b with
    | nil => cases h
    | cons y ys =>
      by_cases hxy : x < y
      · exact Or.inl (by rw [lexLtBytes, if_pos hxy])
      · by_cases hyx : y < x
        · exact Or.inr (Or.inr (by rw [lexLtBytes, if_pos hyx]))
        · have hx : x = y := by omega
          have hlen : xs.length = ys.length := by
            rw [List.length_cons, List.length_cons] at h
            omega
          rcases ih hlen with h1 | h1 | h1
          · exact Or.inl (by rw [lexLtBytes, if_neg hxy, if_neg hyx, h1])
          · exact Or.inr (Or.inl (by rw [hx, h1]))
          · exact Or.inr (Or.inr (by rw [lexLtBytes, if_neg (hx ▸ hyx), if_neg (hx ▸ hxy), h1]))

theorem lexLtBytes_asymm {a b : List Nat} (h : lexLtBytes a b = true) :
    lexLtBytes b a = false := by
  by_contra hc
  have hba : lexLtBytes b a = true := by
    cases hx : lexLtBytes b a
    · exact absurd hx hc
    · rfl
  have := lexLtBytes_trans h hba
  rw [lexLtBytes_irrefl] at this
  cases this

theorem lexLtBytes_iff_lex {a b : List Nat} :
    lexLtBytes a b = true ↔ List.Lex (· < ·) a b := by
  constructor
  · intro h
    induction a generalizing b with
    | nil =>
      cases b with
      | nil => cases h
      | cons y ys => exact List.Lex.nil
    | cons x xs ih =>
      cases b with
      | nil => cases h
      | cons y ys =>
        rw [lexLtBytes] at h
        by_cases hxy : x < y
        · exact List.Lex.rel hxy
        · rw [if_neg hxy] at h
          by_cases hyx : y < x
          · rw [if_pos hyx] at h; cases h
          · rw [if_neg hyx] at h
            have hx : x = y := by omega
            exact hx ▸ List.Lex.cons (ih h)
  · intro h
    induction h with
    | nil => rfl
    | @cons a l1 l2 h2 ih =>
      rw [lexLtBytes, if_neg (by omega), if_neg (by omega)]
      exact ih
    | @rel a1 l1 a2 l2 h2 =>
      rw [lexLtBytes, if_pos h2]

/-- One octet of the strict dotted-quad grammar: nonempty, digits only,
no redundant leading zero, value at most 255.  Modelled from the spec
(standard dotted-quad parsing, as in inet_pton). -/
def okOctet (p : List Char) : Bool :=
  !p.isEmpty && p.all isDigitChar && (decide (p.length = 1) || !(p.headD ' ' == '0')) &&
    decide (decValList p ≤ 255)

/-- Modelled from the spec: standard dotted-quad IPv4 text parsing
(the v4 half of boost from_string). -/
def parseV4Chars (cs : List Char) : Option Nat :=
  if (splitOnChar '.' cs).length = 4 ∧ (splitOnChar '.' cs).all okOctet then
    some (decValList ((splitOnChar '.' cs).getD 0 []) * 16777216 +
      decValList ((splitOnChar '.' cs).getD 1 []) * 65536 +
      decValList ((splitOnChar '.' cs).getD 2 []) * 256 +
      decValList ((splitOnChar '.' cs).getD 3 []))
  else none

/-- IPAddress::toString: dotted quad from toV4 for v4 (from the source); for
v6 the canonical compressed colon-hex text, modelled from the spec in place of
boost address_v6 to_string. -/
def IPAddress.toStringChars (a : IPAddress) : List Char :=
  if a.isV6addr then canonGroups (bytesToGroups a.store)
  else natDec (a.toV4 / 16777216 % 256) ++ '.' :: natDec (a.toV4 / 65536 % 256) ++
    '.' :: natDec (a.toV4 / 256 % 256) ++ '.' :: natDec (a.toV4 % 256)

/-- IPAddress::toString at the String boundary. -/
def IPAddress.toString (a : IPAddress) : String := ⟨a.toStringChars⟩

/-- IPAddress::parse: attempt the textual grammars and tag the result with the
detected family; absent on malformed input (the source catches every exception).
The grammars themselves are modelled from the spec. -/
def IPAddress.parseChars (cs : List Char) : Option IPAddress :=
  match parseV4Chars cs with
  | some n => some (IPAddress.fromV4 n)
  | none =>
    match parseV6Chars cs with
    | some gs => some (IPAddress.fromV6 (groupsToBytes gs))
    | none => none

/-- IPAddress::parse at the String boundary. -/
def IPAddress.parse (s : String) : Option IPAddress := IPAddress.parseChars s.data

/-- The error kinds that can leave NetworkAddress::parse: the
connection_string_invalid error of the source, and the two exceptions
std::stoi can raise from the bracketed branch. -/
inductive FlowErr where
  | connectionStringInvalid
  | stoiInvalidArgument
  | stoiOutOfRange
deriving DecidableEq

/-- One conversion of sscanf %d without the sign handling: a maximal nonempty
run of decimal digits and the unconsumed remainder. -/
def scanDigits (cs : List Char) : Option (Nat × List Char) :=
  if (cs.takeWhile isDigitChar).isEmpty then none
  else some (decValList (cs.takeWhile isDigitChar), cs.dropWhile isDigitChar)

/-- A full sscanf %d conversion: skip whitespace, optional sign, digits. -/
def scanInt (cs : List Char) : Option (Int × List Char) :=
  match cs.dropWhile isSpaceChar with
  | [] => none
  | c :: rest =>
    if c = '-' then (scanDigits rest).map (fun p => (-(p.1 : Int), p.2))
    else if c = '+' then (scanDigits rest).map (fun p => ((p.1 : Int), p.2))
    else (scanDigits (c :: rest)).map (fun p => ((p.1 : Int), p.2))

/-- Matches one literal (non-space) character of a scanf format. -/
def expectChar (c : Char) (cs : List Char) : Option (List Char) :=
  match cs with
  | x :: rest => if x = c then some rest else none
  | [] => none

/-- sscanf(f, "%d.%d.%d.%d:%d%n") together with the full-consumption check
`count == f.size()` of the source. -/
def scanDotted (f : List Char) : Option (Int × Int × Int × Int × Int) := do
  let (a, r1) ← scanInt f
  let r2 ← expectChar '.' r1
  let (b, r3) ← scanInt r2
  let r4 ← expectChar '.' r3
  let (c, r5) ← scanInt r4
  let r6 ← expectChar '.' r5
  let (d, r7) ← scanInt r6
  let r8 ← expectChar ':' r7
  let (p, r9) ← scanInt r8
  if r9 = [] then some (a, b, c, d, p) else none

/-- The body of std::stoi after whitespace skipping: optional sign, a nonempty
digit prefix; any trailing characters after the digits are ignored;
invalid_argument when no digit is found, out_of_range when the value does not
fit in int. -/
def stoiFinish (c : Char) : Option (Nat × List Char) → Except FlowErr Int
  | none => .error .stoiInvalidArgument
  | some (n, _) =>
    if 2147483647 < (n : Int) ∨ (if c = '-' then -(n : Int) else (n : Int)) < -2147483648 then
      .error .stoiOutOfRange
    else .ok (if c = '-' then -(n : Int) else (n : Int))

/-- The sign dispatch of std::stoi after whitespace skipping. -/
def stoiCore : List Char → Except FlowErr Int
  | [] => .error .stoiInvalidArgument
  | c :: rest => stoiFinish c (scanDigits (if c = '-' ∨ c = '+' then rest else c :: rest))

/-- std::stoi: skip whitespace, then parse a signed decimal prefix. -/
def stoiChars (cs : List Char) : Except FlowErr Int :=
  stoiCore (cs.dropWhile isSpaceChar)

/-- NetworkAddress of flow/network.h, modelled from the spec: an IPAddress, a
16-bit port and a flags bitfield with a reserved bit (FLAG_PRIVATE) and a TLS
bit (FLAG_TLS). -/
structure NetworkAddress where
  ip : IPAddress
  port : Nat
  flags : Nat
deriving DecidableEq

/-- Modelled from the spec: the reserved flags bit. -/
def NetworkAddress.FLAG_PRIVATE : Nat := 1

/-- Modelled from the spec: the TLS flags bit. -/
def NetworkAddress.FLAG_TLS : Nat := 2

/-- Modelled from the spec: the NetworkAddress constructor used by parse.  The
port argument is narrowed to 16 bits; flags hold the TLS bit exactly when
requested, the reserved bit exactly when the address is not public. -/
def mkNetworkAddress (ip : IPAddress) (port : Nat) (isPublic tls : Bool) : NetworkAddress :=
  ⟨ip, port % 65536, (if isPublic then 0 else NetworkAddress.FLAG_PRIVATE) +
    (if tls then NetworkAddress.FLAG_TLS else 0)⟩

/-- NetworkAddress::isTLS: the TLS bit of flags. -/
def NetworkAddress.isTLS (x : NetworkAddress) : Bool :=
  x.flags &&& NetworkAddress.FLAG_TLS != 0

/-- NetworkAddress::isV6. -/
def NetworkAddress.isV6 (x : NetworkAddress) : Bool := x.ip.isV6addr

/-- The trailing ":tls" detection of NetworkAddress::parse: strictly more than
four characters and the last four equal to the literal suffix (case-sensitive). -/
def stripTls (s : List Char) : List Char × Bool :=
  if s.length > 4 ∧ s.drop (s.length - 4) = [':', 't', 'l', 's'] then
    (s.take (s.length - 4), true)
  else (s, false)

/-- The body of NetworkAddress::parse after TLS stripping.  Bracketed form:
locate the first closing bracket, require a colon right after it, stoi the
rest as the port (possibly raising the stoi errors, before the address check),
parse the bracket content as an IPAddress.  Otherwise: the strict dotted scan. -/
def parseCore (f : List Char) : Except FlowErr (IPAddress × Nat) :=
  if f.head? = some '[' then
    if f.tail.dropWhile (fun c => c != ']') = [] then .error .connectionStringInvalid
    else if (f.tail.dropWhile (fun c => c != ']')).tail.head? = some ':' then
      match stoiChars ((f.tail.dropWhile (fun c => c != ']')).tail.tail) with
      | .error e => .error e
      | .ok port =>
        match IPAddress.parseChars (f.tail.takeWhile (fun c => c != ']')) with
        | some addr => .ok (addr, (port.emod 65536).toNat)
        | none => .error .connectionStringInvalid
    else .error .connectionStringInvalid
  else
    match scanDotted f with
    | some (a, b, c, d, port) =>
      .ok (IPAddress.fromV4 (((a * 16777216 + b * 65536 + c * 256 + d).emod 4294967296).toNat),
        (port.emod 65536).toNat)
    | none => .error .connectionStringInvalid

/-- NetworkAddress::parse on a character list. -/
def NetworkAddress.parseChars (s : List Char) : Except FlowErr NetworkAddress :=
  (parseCore (stripTls s).1).map (fun q => mkNetworkAddress q.1 q.2 true (stripTls s).2)

/-- NetworkAddress::parse. -/
def NetworkAddress.parse (s : String) : Except FlowErr NetworkAddress :=
  NetworkAddress.parseChars s.data

/-- NetworkAddress::toString: v6 addresses wrapped in brackets, the port after
a colon, the literal ":tls" appended exactly when the TLS flag is set. -/
def NetworkAddress.toStringChars (x : NetworkAddress) : List Char :=
  (if x.ip.isV6addr then '[' :: (x.ip.toStringChars ++ ']' :: ':' :: natDec x.port)
   else x.ip.toStringChars ++ ':' :: natDec x.port) ++
  (if x.isTLS then [':', 't', 'l', 's'] else [])

/-- NetworkAddress::toString at the String boundary. -/
def NetworkAddress.toString (x : NetworkAddress) : String := ⟨x.toStringChars⟩

/-- The candidate-selection lambda inside INetworkConnections::connect: index
the resolved vector at the random index and, when useTLS is requested,
overwrite flags with FLAG_TLS.  Vector indexing is modelled with Option,
`none` standing for an out-of-range access. -/
def pickEndpoint (addresses : List NetworkAddress) (useTLS : Bool) (r : Nat) :
    Option NetworkAddress :=
  match addresses.get? r with
  | some addr => some (if useTLS then { addr with flags := NetworkAddress.FLAG_TLS } else addr)
  | none => none

/-- The map step of INetworkConnections::connect: a resolver failure propagates
unchanged before the selection lambda runs; a successful resolution selects at
randomInt(0, size). -/
def connectPick {E : Type} (resolved : Except E (List NetworkAddress)) (useTLS : Bool)
    (rand : Nat → Nat → Nat) : Except E (Option NetworkAddress) :=
  match resolved with
  | .error e => .error e
  | .ok addresses => .ok (pickEndpoint addresses useTLS (rand 0 addresses.length))

theorem ip_lt_irrefl (a : IPAddress) : IPAddress.lt a a = false := by
  unfold IPAddress.lt
  rw [if_pos rfl, lexLtBytes_irrefl]

theorem ip_lt_trans {a b c : IPAddress} (h1 : IPAddress.lt a b = true)
    (h2 : IPAddress.lt b c = true) : IPAddress.lt a c = true := by
  unfold IPAddress.lt at h1 h2 ⊢
  cases ha : a.isV6addr <;> cases hb : b.isV6addr <;> cases hc : c.isV6addr <;>
    rw [ha, hb] at h1 <;> rw [hb, hc] at h2 <;> simp_all <;>
    exact lexLtBytes_trans h1 h2

/-- C6: the IPAddress order is family-first (every IPv4 value below every IPv6
value), lexicographic on the stored bytes within a family, and together with
structural equality it is a strict total order (irreflexive, transitive,
trichotomous on equal-length stores, with equality exactly when neither side
is smaller). -/
theorem c6_ipaddress_order :
    (∀ a b : IPAddress, a.isV6addr = false → b.isV6addr = true → IPAddress.lt a b = true) ∧
    (∀ a b : IPAddress, a.isV6addr = b.isV6addr →
      (IPAddress.lt a b = true ↔ List.Lex (· < ·) a.store b.store)) ∧
    (∀ a : IPAddress, IPAddress.lt a a = false) ∧
    (∀ a b c : IPAddress, IPAddress.lt a b = true → IPAddress.lt b c = true →
      IPAddress.lt a c = true) ∧
    (∀ a b : IPAddress, a.store.length = b.store.length →
      IPAddress.lt a b = true ∨ a = b ∨ IPAddress.lt b a = true) ∧
    (∀ a b : IPAddress, a.store.length = b.store.length →
      (a = b ↔ IPAddress.lt a b = false ∧ IPAddress.lt b a = false)) := by
  have htotal : ∀ a b : IPAddress, a.store.length = b.store.length →
      IPAddress.lt a b = true ∨ a = b ∨ IPAddress.lt b a = true := by
    intro a b hlen
    by_cases hfam : a.isV6addr = b.isV6addr
    · unfold IPAddress.lt
      rw [if_pos hfam, if_pos hfam.symm]
      rcases lexLtBytes_total hlen with h1 | h1 | h1
      · exact Or.inl h1
      · refine Or.inr (Or.inl ?_)
        cases a; cases b
        simp_all
      · exact Or.inr (Or.inr h1)
    · unfold IPAddress.lt
      rw [if_neg hfam, if_neg (fun h => hfam h.symm)]
      cases ha : a.isV6addr <;> cases hb : b.isV6addr <;> simp_all
  refine ⟨?_, ?_, ip_lt_irrefl, fun a b c => ip_lt_trans, htotal, ?_⟩
  · intro a b ha hb
    unfold IPAddress.lt
    rw [ha, hb, if_neg (by simp)]
    rfl
  · intro a b hfam
    unfold IPAddress.lt
    rw [if_pos hfam, lexLtBytes_iff_lex]
  · intro a b hlen
    constructor
    · intro he
      rw [he, ip_lt_irrefl]
      exact ⟨rfl, rfl⟩
    · intro ⟨h1, h2⟩
      rcases htotal a b hlen with h3 | h3 | h3
      · rw [h3] at h1; cases h1
      · exact h3
      · rw [h3] at h2; cases h2

/-- Witness for C6 at concrete addresses: the loopback IPv4 address is below
the zero IPv6 address, and equality at a concrete address coincides with
neither side being smaller. -/
theorem c6_ipaddress_order_witness :
    IPAddress.lt (IPAddress.fromV4 16777343) (IPAddress.fromV6 (List.replicate 16 0)) = true ∧
    (IPAddress.fromV4 16777343 = IPAddress.fromV4 16777343 ↔
      IPAddress.lt (IPAddress.fromV4 16777343) (IPAddress.fromV4 16777343) = false ∧
      IPAddress.lt (IPAddress.fromV4 16777343) (IPAddress.fromV4 16777343) = false) :=
  ⟨c6_ipaddress_order.1 _ _ rfl rfl, c6_ipaddress_order.2.2.2.2.2 _ _ rfl⟩

theorem isTLS_flagTLS (ip : IPAddress) (port : Nat) :
    (NetworkAddress.mk ip port NetworkAddress.FLAG_TLS).isTLS = true := by
  show (NetworkAddress.FLAG_TLS &&& NetworkAddress.FLAG_TLS != 0) = true
  decide

/-- C4: for every non-empty candidate list and every in-range random index the
selection lambda of connect picks exactly the candidate at that index; with
useTLS the selected candidate has its flags overwritten to exactly the TLS bit
(so isTLS is true regardless of prior flags); without useTLS the candidate is
returned completely unchanged. -/
theorem c4_connect_selection (addresses : List NetworkAddress) (useTLS : Bool) (r : Nat)
    (h : r < addresses.length) :
    ∃ a y, addresses.get? r = some a ∧ pickEndpoint addresses useTLS r = some y ∧
      (useTLS = true → y.ip = a.ip ∧ y.port = a.port ∧
        y.flags = NetworkAddress.FLAG_TLS ∧ y.isTLS = true) ∧
      (useTLS = false → y = a) := by
  cases useTLS with
  | true =>
    refine ⟨addresses.get ⟨r, h⟩,
      { ip := (addresses.get ⟨r, h⟩).ip, port := (addresses.get ⟨r, h⟩).port,
        flags := NetworkAddress.FLAG_TLS },
      List.get?_eq_get h, ?_, fun _ => ⟨rfl, rfl, rfl, isTLS_flagTLS _ _⟩,
      fun hcon => Bool.noConfusion hcon⟩
    unfold pickEndpoint
    rw [List.get?_eq_get h]
    rfl
  | false =>
    refine ⟨addresses.get ⟨r, h⟩, addresses.get ⟨r, h⟩,
      List.get?_eq_get h, ?_, fun hcon => Bool.noConfusion hcon, fun _ => rfl⟩
    unfold pickEndpoint
    rw [List.get?_eq_get h]
    rfl

/-- Witness for C4: a two-candidate list with useTLS, index 1. -/
theorem c4_connect_selection_witness :
    ∃ a y, [mkNetworkAddress (IPAddress.fromV4 1) 80 true false,
        mkNetworkAddress (IPAddress.fromV4 2) 81 true false].get? 1 = some a ∧
      pickEndpoint [mkNetworkAddress (IPAddress.fromV4 1) 80 true false,
        mkNetworkAddress (IPAddress.fromV4 2) 81 true false] true 1 = some y ∧
      (true = true → y.ip = a.ip ∧ y.port = a.port ∧
        y.flags = NetworkAddress.FLAG_TLS ∧ y.isTLS = true) ∧
      (true = false → y = a) :=
  c4_connect_selection _ true 1 (by decide)

/-- C5: under the spec contract that resolution yields a non-empty list or an
error, and that randomInt(0, n) is below n for positive n, connect propagates
a resolution failure unchanged before selection runs, and on success the
selection performs no out-of-range access. -/
theorem c5_connect_resolution {E : Type} (resolved : Except E (List NetworkAddress))
    (useTLS : Bool) (rand : Nat → Nat → Nat)
    (hwf : ∀ l, resolved = .ok l → l ≠ [])
    (hrand : ∀ n, 0 < n → rand 0 n < n) :
    (∀ e, resolved = .error e → connectPick resolved useTLS rand = .error e) ∧
    (∀ l, resolved = .ok l → ∃ a, connectPick resolved useTLS rand = .ok (some a)) := by
  constructor
  · intro e he
    rw [he]
    rfl
  · intro l hl
    rw [hl]
    have hne := hwf l hl
    have hlen : 0 < l.length := List.length_pos.mpr hne
    have hr := hrand l.length hlen
    show ∃ a, Except.ok (pickEndpoint l useTLS (rand 0 l.length)) = .ok (some a)
    unfold pickEndpoint
    rw [List.get?_eq_get hr]
    exact ⟨_, rfl⟩

/-- Witness for C5: a singleton candidate list and the constant-zero random
source; the selection succeeds. -/
theorem c5_connect_resolution_witness :
    ∃ a, connectPick (E := Unit) (.ok [mkNetworkAddress (IPAddress.fromV4 1) 80 true false])
      false (fun _ _ => 0) = .ok (some a) :=
  (c5_connect_resolution (.ok [mkNetworkAddress (IPAddress.fromV4 1) 80 true false])
    false (fun _ _ => 0)
    (fun l hl => by cases hl; simp)
    (fun n hn => hn)).2 _ rfl

theorem list_len4 {α : Type} {l : List α} (h : l.length = 4) :
    ∃ a b c d, l = [a, b, c, d] := by
  cases l with
  | nil => cases h
  | cons a t1 =>
    cases t1 with
    | nil => cases h
    | cons b t2 =>
      cases t2 with
      | nil => cases h
      | cons c t3 =>
        cases t3 with
        | nil => cases h
        | cons d t4 =>
          cases t4 with
          | nil => exact ⟨a, b, c, d, rfl⟩
          | cons e t5 =>
            simp only [List.length_cons] at h
            omega

theorem okOctet_le {p : List Char} (h : okOctet p = true) : decValList p ≤ 255 := by
  unfold okOctet at h
  simp only [Bool.and_eq_true, decide_eq_true_eq] at h
  exact h.2

theorem okOctet_digits {p : List Char} (h : okOctet p = true) :
    ∀ c ∈ p, isDigitChar c = true := by
  unfold okOctet at h
  simp only [Bool.and_eq_true, List.all_eq_true, decide_eq_true_eq] at h
  exact h.1.1.2

theorem parseV4_lt {cs : List Char} {n : Nat} (h : parseV4Chars cs = some n) :
    n < 4294967296 := by
  unfold parseV4Chars at h
  split at h
  · rename_i hcond
    obtain ⟨hlen4, hall⟩ := hcond
    obtain ⟨p1, p2, p3, p4, hsp⟩ := list_len4 hlen4
    rw [hsp] at hall h
    simp only [List.getD_cons_zero, List.getD_cons_succ] at h
    simp only [List.all_cons, List.all_nil, Bool.and_eq_true, Bool.and_true] at hall
    have h1 := okOctet_le hall.1
    have h2 := okOctet_le hall.2.1
    have h3 := okOctet_le hall.2.2.1
    have h4 := okOctet_le hall.2.2.2
    injection h with hn
    omega
  · cases h

/-- C9: IPAddress::parse is a total operation: on every input it either
reports absence or returns a structured address tagged with the family of the
grammar that succeeded (dotted quad gives a v4 value below 2^32, colon hex
gives a v6 value); no exception escapes since the operation is Option-valued. -/
theorem c9_ipaddress_parse_total (s : String) :
    IPAddress.parse s = none ∨
    (∃ n, n < 4294967296 ∧ parseV4Chars s.data = some n ∧
      IPAddress.parse s = some (IPAddress.fromV4 n) ∧
      (IPAddress.fromV4 n).isV6addr = false) ∨
    (∃ gs, parseV6Chars s.data = some gs ∧
      IPAddress.parse s = some (IPAddress.fromV6 (groupsToBytes gs)) ∧
      (IPAddress.fromV6 (groupsToBytes gs)).isV6addr = true) := by
  unfold IPAddress.parse IPAddress.parseChars
  cases h4 : parseV4Chars s.data with
  | some n => exact Or.inr (Or.inl ⟨n, parseV4_lt h4, rfl, rfl, rfl⟩)
  | none =>
    cases h6 : parseV6Chars s.data with
    | some gs => exact Or.inr (Or.inr ⟨gs, rfl, rfl, rfl⟩)
    | none => exact Or.inl rfl

theorem stoiCore_error {cs : List Char} {e : FlowErr} (h : stoiCore cs = .error e) :
    e = .stoiInvalidArgument ∨ e = .stoiOutOfRange := by
  cases cs with
  | nil =>
    injection h with h2
    exact Or.inl h2.symm
  | cons c rest =>
    rw [stoiCore] at h
    cases hsd : scanDigits (if c = '-' ∨ c = '+' then rest else c :: rest) with
    | none =>
      rw [hsd] at h
      injection h with h2
      exact Or.inl h2.symm
    | some p =>
      rw [hsd] at h
      obtain ⟨n, r⟩ := p
      rw [stoiFinish] at h
      by_cases hc : 2147483647 < (n : Int) ∨ (if c = '-' then -(n : Int) else (n : Int)) < -2147483648
      · rw [if_pos hc] at h
        injection h with h2
        exact Or.inr h2.symm
      · rw [if_neg hc] at h
        cases h

theorem stoiChars_error {cs : List Char} {e : FlowErr} (h : stoiChars cs = .error e) :
    e = .stoiInvalidArgument ∨ e = .stoiOutOfRange := by
  unfold stoiChars at h
  exact stoiCore_error h

/-- C2 (amended): NetworkAddress::parse never returns a partial address (it is
Except-valued), and every failure outside the bracketed branch is the
malformed-connection-string error; inside the bracketed branch a failure is
either that error or one of the two std::stoi errors. -/
theorem c2_parse_errors (s : String) (e : FlowErr)
    (h : NetworkAddress.parse s = .error e) :
    (e = .connectionStringInvalid ∨ e = .stoiInvalidArgument ∨ e = .stoiOutOfRange) ∧
    ((stripTls s.data).1.head? ≠ some '[' → e = .connectionStringInvalid) := by
  unfold NetworkAddress.parse NetworkAddress.parseChars at h
  have hcore : parseCore (stripTls s.data).1 = .error e := by
    cases hx : parseCore (stripTls s.data).1 with
    | error e2 =>
      rw [hx] at h
      injection h with h2
      rw [h2]
    | ok q =>
      rw [hx] at h
      cases h
  clear h
  unfold parseCore at hcore
  by_cases hb : (stripTls s.data).1.head? = some '['
  · rw [if_pos hb] at hcore
    refine ⟨?_, fun hcontra => absurd hb hcontra⟩
    split at hcore
    · injection hcore with h2
      exact Or.inl h2.symm
    · split at hcore
      · cases hst : stoiChars ((stripTls s.data).1.tail.dropWhile (fun c => c != ']')).tail.tail with
        | error e2 =>
          rw [hst] at hcore
          injection hcore with h2
          rcases stoiChars_error hst with h3 | h3
          · exact Or.inr (Or.inl (h2 ▸ h3))
          · exact Or.inr (Or.inr (h2 ▸ h3))
        | ok port =>
          rw [hst] at hcore
          cases hip : IPAddress.parseChars ((stripTls s.data).1.tail.takeWhile (fun c => c != ']')) with
          | some addr =>
            rw [hip] at hcore
            cases hcore
          | none =>
            rw [hip] at hcore
            injection hcore with h2
            exact Or.inl h2.symm
      · injection hcore with h2
        exact Or.inl h2.symm
  · rw [if_neg hb] at hcore
    cases hsd : scanDotted (stripTls s.data).1 with
    | some q =>
      rw [hsd] at hcore
      obtain ⟨a, b, c, d, p⟩ := q
      cases hcore
    | none =>
      rw [hsd] at hcore
      injection hcore with h2
      exact ⟨Or.inl h2.symm, fun _ => h2.symm⟩

/-- Witness for C2 (amended) at the concrete erroring input "1.2.3.4:80:extra". -/
theorem c2_parse_errors_witness :
    ((FlowErr.connectionStringInvalid = .connectionStringInvalid ∨
      FlowErr.connectionStringInvalid = .stoiInvalidArgument ∨
      FlowErr.connectionStringInvalid = .stoiOutOfRange) ∧
     ((stripTls ("1.2.3.4:80:extra").data).1.head? ≠ some '[' →
      FlowErr.connectionStringInvalid = .connectionStringInvalid)) :=
  c2_parse_errors ("1.2.3.4:80:extra") .connectionStringInvalid (by rfl)

/-- C2 (counterexample): the input has trailing characters after the port in
the bracketed form — a grammar violation the claim says raises the malformed
connection string error — yet parse accepts it, returning port 80. -/
theorem c2_counterexample :
    NetworkAddress.parse ("[::1]:80xyz") =
      .ok { ip := { isV6addr := true, store := [0, 0, 0, 0, 0, 0, 0, 0, 0, 0, 0, 0, 0, 0, 0, 1] },
            port := 80, flags := 0 } := by
  rfl

theorem int_emod_toNat_lt (p : Int) : (p.emod 65536).toNat < 65536 := by
  have h1 : 0 ≤ p.emod 65536 := Int.emod_nonneg p (by decide)
  have h2 : p.emod 65536 < 65536 := Int.emod_lt_of_pos p (by decide)
  omega

theorem parseV6_shape {cs : List Char} {gs : List Nat} (h : parseV6Chars cs = some gs) :
    gs.length = 8 ∧ ∀ g ∈ gs, g < 65536 := by
  cases hf : findDC cs with
  | none =>
    simp only [parseV6Chars, hf] at h
    split at h
    · rename_i hlen
      exact ⟨(mapParseHex_length h).trans hlen, mapParseHex_bound h⟩
    · cases h
  | some pr =>
    obtain ⟨before, after⟩ := pr
    simp only [parseV6Chars, hf] at h
    cases hA : (if before = [] then some ([] : List Nat)
        else mapParseHex (splitOnChar ':' before)) with
    | none => rw [hA] at h; cases h
    | some l =>
      cases hB : (if after = [] then some ([] : List Nat)
          else mapParseHex (splitOnChar ':' after)) with
      | none => rw [hA, hB] at h; cases h
      | some r =>
        rw [hA, hB, assembleV6] at h
        split at h
        · rename_i hle
          injection h with h2
          have hlbound : ∀ g ∈ l, g < 65536 := by
            by_cases hb : before = []
            · rw [if_pos hb] at hA
              injection hA with h3
              rw [← h3]
              intro g hg
              cases hg
            · rw [if_neg hb] at hA
              exact mapParseHex_bound hA
          have hrbound : ∀ g ∈ r, g < 65536 := by
            by_cases hb : after = []
            · rw [if_pos hb] at hB
              injection hB with h3
              rw [← h3]
              intro g hg
              cases hg
            · rw [if_neg hb] at hB
              exact mapParseHex_bound hB
          constructor
          · rw [← h2]
            simp only [List.length_append, List.length_replicate]
            omega
          · rw [← h2]
            intro g hg
            rcases List.mem_append.mp hg with h3 | h3
            · rcases List.mem_append.mp h3 with h4 | h4
              · exact hlbound g h4
              · have := List.eq_of_mem_replicate h4
                omega
            · exact hrbound g h3
        · cases h

theorem parseCore_ok_shape {f : List Char} {q : IPAddress × Nat} (h : parseCore f = .ok q) :
    q.2 < 65536 ∧
    ((∃ n, n < 4294967296 ∧ q.1 = IPAddress.fromV4 n) ∨
     (∃ gs, gs.length = 8 ∧ (∀ g ∈ gs, g < 65536) ∧
       q.1 = IPAddress.fromV6 (groupsToBytes gs))) := by
  unfold parseCore at h
  by_cases hb : f.head? = some '['
  · rw [if_pos hb] at h
    split at h
    · cases h
    · split at h
      · cases hst : stoiChars ((f.tail.dropWhile (fun c => c != ']')).tail.tail) with
        | error e => rw [hst] at h; cases h
        | ok port =>
          rw [hst] at h
          cases hip : IPAddress.parseChars (f.tail.takeWhile (fun c => c != ']')) with
          | none => rw [hip] at h; cases h
          | some addr =>
            rw [hip] at h
            injection h with h2
            rw [← h2]
            refine ⟨int_emod_toNat_lt port, ?_⟩
            unfold IPAddress.parseChars at hip
            cases h4 : parseV4Chars (f.tail.takeWhile (fun c => c != ']')) with
            | some n =>
              rw [h4] at hip
              injection hip with h3
              exact Or.inl ⟨n, parseV4_lt h4, h3.symm⟩
            | none =>
              rw [h4] at hip
              cases h6 : parseV6Chars (f.tail.takeWhile (fun c => c != ']')) with
              | some gs =>
                rw [h6] at hip
                injection hip with h3
                have := parseV6_shape h6
                exact Or.inr ⟨gs, this.1, this.2, h3.symm⟩
              | none => rw [h6] at hip; cases hip
      · cases h
  · rw [if_neg hb] at h
    cases hsd : scanDotted f with
    | none => rw [hsd] at h; cases h
    | some q5 =>
      rw [hsd] at h
      obtain ⟨a, b, c, d, p⟩ := q5
      injection h with h2
      rw [← h2]
      refine ⟨int_emod_toNat_lt p, Or.inl ⟨_, ?_, rfl⟩⟩
      have h1 : 0 ≤ (a * 16777216 + b * 65536 + c * 256 + d).emod 4294967296 :=
        Int.emod_nonneg _ (by decide)
      have h2 : (a * 16777216 + b * 65536 + c * 256 + d).emod 4294967296 < 4294967296 :=
        Int.emod_lt_of_pos _ (by decide)
      omega

/-- Every address produced by NetworkAddress::parse is built by the parse
constructor call: public, TLS exactly as detected, 16-bit port, and an IP
that is either a v4 value below 2^32 or a v6 value of eight 16-bit groups. -/
theorem parseChars_ok_shape {s : List Char} {x : NetworkAddress}
    (h : NetworkAddress.parseChars s = .ok x) :
    ∃ q, parseCore (stripTls s).1 = .ok q ∧
      x = mkNetworkAddress q.1 q.2 true (stripTls s).2 := by
  unfold NetworkAddress.parseChars at h
  cases hc : parseCore (stripTls s).1 with
  | error e => rw [hc] at h; cases h
  | ok q =>
    rw [hc] at h
    injection h with h2
    exact ⟨q, rfl, h2.symm⟩

/-- C3: every successful parse yields a valid 16-bit port; in particular the
port is non-negative as an integer. -/
theorem c3_parse_port (s : String) (x : NetworkAddress)
    (h : NetworkAddress.parse s = .ok x) :
    x.port < 65536 ∧ (0 : Int) ≤ (x.port : Int) := by
  obtain ⟨q, hq, hx⟩ := parseChars_ok_shape h
  have hshape := parseCore_ok_shape hq
  rw [hx]
  unfold mkNetworkAddress
  refine ⟨?_, Int.ofNat_nonneg _⟩
  show q.2 % 65536 < 65536
  omega

/-- Witness for C3 at "127.0.0.1:4500". -/
theorem c3_parse_port_witness :
    (NetworkAddress.mk (IPAddress.fromV4 2130706433) 4500 0).port < 65536 ∧
    (0 : Int) ≤ ((NetworkAddress.mk (IPAddress.fromV4 2130706433) 4500 0).port : Int) :=
  c3_parse_port ("127.0.0.1:4500") _ (by rfl)

theorem stripTls_no_suffix {s : List Char} (h : s.drop (s.length - 4) ≠ [':', 't', 'l', 's']) :
    stripTls s = (s, false) := by
  unfold stripTls
  rw [if_neg (fun hc => h hc.2)]

theorem stripTls_append_tls {s : List Char} (h : s ≠ []) :
    stripTls (s ++ [':', 't', 'l', 's']) = (s, true) := by
  have hlen : (s ++ [':', 't', 'l', 's']).length = s.length + 4 := by
    rw [List.length_append]
    rfl
  have hlenpos : 0 < s.length := List.length_pos.mpr h
  have hsub : (s ++ [':', 't', 'l', 's']).length - 4 = s.length := by omega
  unfold stripTls
  rw [if_pos]
  · rw [hsub, List.take_left]
  · refine ⟨by omega, ?_⟩
    rw [hsub, List.drop_left]

theorem parseCore_nil : parseCore [] = .error .connectionStringInvalid := rfl

theorem isTLS_mk_false (ip : IPAddress) (p : Nat) :
    (mkNetworkAddress ip p true false).isTLS = false := by
  show ((if true then 0 else NetworkAddress.FLAG_PRIVATE) +
    (if false then NetworkAddress.FLAG_TLS else 0) &&& NetworkAddress.FLAG_TLS != 0) = false
  decide

theorem isTLS_mk_true (ip : IPAddress) (p : Nat) :
    (mkNetworkAddress ip p true true).isTLS = true := by
  show ((if true then 0 else NetworkAddress.FLAG_PRIVATE) +
    (if true then NetworkAddress.FLAG_TLS else 0) &&& NetworkAddress.FLAG_TLS != 0) = true
  decide

theorem toStringChars_tls {y : NetworkAddress} (h : y.isTLS = true) :
    ∃ pre, y.toStringChars = pre ++ [':', 't', 'l', 's'] := by
  refine ⟨(if y.ip.isV6addr then '[' :: (y.ip.toStringChars ++ ']' :: ':' :: natDec y.port)
    else y.ip.toStringChars ++ ':' :: natDec y.port), ?_⟩
  unfold NetworkAddress.toStringChars
  rw [h]
  rfl

/-- C7: TLS suffix symmetry.  If parse accepts s and s does not end in the
four-character suffix ":tls", then the parsed value has isTLS false; parsing
s with ":tls" appended succeeds with the same address and port, isTLS true,
and its toString ends with ":tls". -/
theorem c7_tls_suffix (s : String) (x : NetworkAddress)
    (h : NetworkAddress.parse s = .ok x)
    (hns : s.data.drop (s.data.length - 4) ≠ [':', 't', 'l', 's']) :
    x.isTLS = false ∧
    ∃ y, NetworkAddress.parse (s ++ (":tls")) = .ok y ∧ y.isTLS = true ∧
      y.ip = x.ip ∧ y.port = x.port ∧
      ∃ pre, y.toString.data = pre ++ [':', 't', 'l', 's'] := by
  have hstrip : stripTls s.data = (s.data, false) := stripTls_no_suffix hns
  unfold NetworkAddress.parse NetworkAddress.parseChars at h
  rw [hstrip] at h
  cases hc : parseCore s.data with
  | error e =>
    rw [hc] at h
    cases h
  | ok q =>
    rw [hc] at h
    injection h with h2
    have hx : x = mkNetworkAddress q.1 q.2 true false := h2.symm
    have hne : s.data ≠ [] := by
      intro hnil
      rw [hnil, parseCore_nil] at hc
      cases hc
    have hdata : (s ++ (":tls")).data = s.data ++ [':', 't', 'l', 's'] :=
      String.data_append s (":tls")
    have hstrip2 : stripTls ((s ++ (":tls")).data) = (s.data, true) := by
      rw [hdata]
      exact stripTls_append_tls hne
    refine ⟨by rw [hx]; exact isTLS_mk_false _ _, mkNetworkAddress q.1 q.2 true true, ?_,
      isTLS_mk_true _ _, by rw [hx]; rfl, by rw [hx]; rfl, ?_⟩
    · unfold NetworkAddress.parse NetworkAddress.parseChars
      rw [hstrip2, hc]
      rfl
    · exact toStringChars_tls (isTLS_mk_true _ _)

/-- Witness for C7 at "127.0.0.1:4500". -/
theorem c7_tls_suffix_witness :
    (NetworkAddress.mk (IPAddress.fromV4 2130706433) 4500 0).isTLS = false ∧
    ∃ y, NetworkAddress.parse (("127.0.0.1:4500") ++ (":tls")) = .ok y ∧ y.isTLS = true ∧
      y.ip = (NetworkAddress.mk (IPAddress.fromV4 2130706433) 4500 0).ip ∧
      y.port = (NetworkAddress.mk (IPAddress.fromV4 2130706433) 4500 0).port ∧
      ∃ pre, y.toString.data = pre ++ [':', 't', 'l', 's'] :=
  c7_tls_suffix ("127.0.0.1:4500") _ (by rfl) (by decide)

theorem int_emod_eq_mod (a b : Int) : a.emod b = a % b := rfl

theorem digit_not_space {c : Char} (h : isDigitChar c = true) : isSpaceChar c = false := by
  unfold isDigitChar at h
  unfold isSpaceChar
  simp only [decide_eq_true_eq] at h
  simp only [decide_eq_false_iff_not]
  omega

theorem takeWhile_all_append {p : Char → Bool} {A B : List Char}
    (hA : ∀ c ∈ A, p c = true) (hB : ∀ c, B.head? = some c → p c = false) :
    (A ++ B).takeWhile p = A ∧ (A ++ B).dropWhile p = B := by
  induction A with
  | nil =>
    simp only [List.nil_append]
    cases B with
    | nil => exact ⟨rfl, rfl⟩
    | cons b B2 =>
      have hb := hB b rfl
      rw [List.takeWhile_cons, List.dropWhile_cons, if_neg (by simp [hb]), if_neg (by simp [hb])]
      exact ⟨rfl, rfl⟩
  | cons a A2 ih =>
    have ha := hA a (List.mem_cons_self a A2)
    obtain ⟨ht, hd2⟩ := ih (fun c hc => hA c (List.mem_cons_of_mem a hc))
    rw [List.cons_append, List.takeWhile_cons, List.dropWhile_cons, if_pos ha, if_pos ha,
      ht, hd2]
    exact ⟨rfl, rfl⟩

theorem scanDigits_prefix {A B : List Char} (hne : A ≠ [])
    (hd : ∀ c ∈ A, isDigitChar c = true)
    (hB : ∀ c, B.head? = some c → isDigitChar c = false) :
    scanDigits (A ++ B) = some (decValList A, B) := by
  obtain ⟨htake, hdrop⟩ := takeWhile_all_append hd hB
  unfold scanDigits
  rw [htake, hdrop, if_neg (by simp [List.isEmpty_iff, hne])]

theorem scanInt_digits {A B : List Char} (hne : A ≠ [])
    (hd : ∀ c ∈ A, isDigitChar c = true)
    (hB : ∀ c, B.head? = some c → isDigitChar c = false) :
    scanInt (A ++ B) = some ((decValList A : Int), B) := by
  obtain ⟨a, A2, rfl⟩ := List.exists_cons_of_ne_nil hne
  have ha : isDigitChar a = true := hd a (List.mem_cons_self a A2)
  have hdw : ((a :: A2) ++ B).dropWhile isSpaceChar = a :: (A2 ++ B) := by
    rw [List.cons_append, List.dropWhile_cons, if_neg (by simp [digit_not_space ha])]
  have hsd : scanDigits ((a :: A2) ++ B) = some (decValList (a :: A2), B) :=
    scanDigits_prefix hne hd hB
  rw [List.cons_append] at hsd
  simp only [scanInt, hdw]
  rw [if_neg (isDigitChar_ne_of_not ha (by decide)),
    if_neg (isDigitChar_ne_of_not ha (by decide)), hsd]
  rfl

theorem expectChar_cons (c : Char) (rest : List Char) : expectChar c (c :: rest) = some rest := by
  show (if c = c then some rest else none) = some rest
  rw [if_pos rfl]

theorem scanDotted_digits (A B C D P : List Char)
    (hA : A ≠ []) (hdA : ∀ c ∈ A, isDigitChar c = true)
    (hB : B ≠ []) (hdB : ∀ c ∈ B, isDigitChar c = true)
    (hC : C ≠ []) (hdC : ∀ c ∈ C, isDigitChar c = true)
    (hD : D ≠ []) (hdD : ∀ c ∈ D, isDigitChar c = true)
    (hP : P ≠ []) (hdP : ∀ c ∈ P, isDigitChar c = true) :
    scanDotted (A ++ ('.' :: (B ++ ('.' :: (C ++ ('.' :: (D ++ (':' :: P)))))))) =
      some ((decValList A : Int), (decValList B : Int), (decValList C : Int),
        (decValList D : Int), (decValList P : Int)) := by
  have hdot : ∀ (X : List Char) (c : Char),
      (('.' : Char) :: X).head? = some c → isDigitChar c = false := by
    intro X c hc
    simp only [List.head?_cons, Option.some.injEq] at hc
    rw [← hc]
    decide
  have hcolon : ∀ (X : List Char) (c : Char),
      ((':' : Char) :: X).head? = some c → isDigitChar c = false := by
    intro X c hc
    simp only [List.head?_cons, Option.some.injEq] at hc
    rw [← hc]
    decide
  have e1 := scanInt_digits hA hdA (hdot (B ++ ('.' :: (C ++ ('.' :: (D ++ (':' :: P)))))))
  have e2 : expectChar '.' ('.' :: (B ++ ('.' :: (C ++ ('.' :: (D ++ (':' :: P))))))) =
      some (B ++ ('.' :: (C ++ ('.' :: (D ++ (':' :: P)))))) :=
    expectChar_cons '.' _
  have e3 := scanInt_digits hB hdB (hdot (C ++ ('.' :: (D ++ (':' :: P)))))
  have e4 : expectChar '.' ('.' :: (C ++ ('.' :: (D ++ (':' :: P))))) =
      some (C ++ ('.' :: (D ++ (':' :: P)))) :=
    expectChar_cons '.' _
  have e5 := scanInt_digits hC hdC (hdot (D ++ (':' :: P)))
  have e6 : expectChar '.' ('.' :: (D ++ (':' :: P))) = some (D ++ (':' :: P)) :=
    expectChar_cons '.' _
  have e7 := scanInt_digits hD hdD (hcolon P)
  have e8 : expectChar ':' (':' :: P) = some P :=
    expectChar_cons ':' _
  have e9 : scanInt P = some ((decValList P : Int), []) := by
    have h0 := scanInt_digits (B := []) hP hdP (fun c hc => Option.noConfusion hc)
    rw [List.append_nil] at h0
    exact h0
  simp only [scanDotted, e1, e2, e3, e4, e5, e6, e7, e8, e9, Option.bind_eq_bind,
    Option.some_bind]
  rfl

theorem getLast?_cons_ne_nil {x : Char} {l : List Char} (h : l ≠ []) :
    (x :: l).getLast? = l.getLast? := by
  obtain ⟨b, t, rfl⟩ := List.exists_cons_of_ne_nil h
  exact List.getLast?_cons_cons

theorem getLast?_chain (l1 : List Char) {x : Char} {l2 : List Char} (h : l2 ≠ []) :
    (l1 ++ (x :: l2)).getLast? = l2.getLast? := by
  rw [List.getLast?_append, getLast?_cons_ne_nil h]
  obtain ⟨b, t, rfl⟩ := List.exists_cons_of_ne_nil h
  cases hg : (b :: t).getLast? with
  | none =>
    rw [List.getLast?_cons] at hg
    cases ht : t.getLast? with
    | none => rw [ht] at hg; cases hg
    | some z => rw [ht] at hg; cases hg
  | some z => rfl

theorem stripTls_of_last_digit {s : List Char} {c : Char} (hl : s.getLast? = some c)
    (hd : isDigitChar c = true) : stripTls s = (s, false) := by
  apply stripTls_no_suffix
  intro hdrop
  have hs : s = s.take (s.length - 4) ++ [':', 't', 'l', 's'] := by
    conv_lhs => rw [← List.take_append_drop (s.length - 4) s]
    rw [hdrop]
  rw [hs, List.getLast?_append] at hl
  simp only [List.getLast?_cons_cons, List.getLast?_singleton, Option.or_some] at hl
  have hc : c = 's' := by
    cases hl
    rfl
  rw [hc] at hd
  cases hd

/-- C10: the dotted-quad branch of NetworkAddress::parse does not range-check
octets.  For every input of the shape A.B.C.D:PORT whose five fields are
nonempty decimal digit strings with int-representable values — octets beyond
255 included — parse succeeds, the stored 32-bit address is the shifted sum of
the octet values reduced modulo 2^32, and the port is the port value reduced
modulo 2^16. -/
theorem c10_no_octet_range_check (A B C D P : List Char)
    (hA : A ≠ []) (hdA : ∀ c ∈ A, isDigitChar c = true) (hvA : decValList A ≤ 2147483647)
    (hB : B ≠ []) (hdB : ∀ c ∈ B, isDigitChar c = true) (hvB : decValList B ≤ 2147483647)
    (hC : C ≠ []) (hdC : ∀ c ∈ C, isDigitChar c = true) (hvC : decValList C ≤ 2147483647)
    (hD : D ≠ []) (hdD : ∀ c ∈ D, isDigitChar c = true) (hvD : decValList D ≤ 2147483647)
    (hP : P ≠ []) (hdP : ∀ c ∈ P, isDigitChar c = true) (hvP : decValList P ≤ 2147483647) :
    NetworkAddress.parse ⟨A ++ ('.' :: (B ++ ('.' :: (C ++ ('.' :: (D ++ (':' :: P)))))))⟩ =
      .ok (mkNetworkAddress
        (IPAddress.fromV4 ((decValList A * 16777216 + decValList B * 65536 +
          decValList C * 256 + decValList D) % 4294967296))
        (decValList P % 65536) true false) := by
  have hPne : (':' :: P) ≠ ([] : List Char) := by simp
  obtain ⟨pl, hpl, hplmem⟩ : ∃ c, P.getLast? = some c ∧ c ∈ P := by
    have h1 := List.getLast_mem_getLast? hP
    exact ⟨P.getLast hP, h1, List.getLast_mem hP⟩
  have hlast : (A ++ ('.' :: (B ++ ('.' :: (C ++ ('.' :: (D ++ (':' :: P)))))))).getLast? =
      some pl := by
    rw [getLast?_chain A (by simp), getLast?_chain B (by simp), getLast?_chain C (by simp),
      getLast?_chain D hP]
    exact hpl
  have hstrip := stripTls_of_last_digit hlast (hdP pl hplmem)
  have hhead : (A ++ ('.' :: (B ++ ('.' :: (C ++ ('.' :: (D ++ (':' :: P)))))))).head? ≠
      some '[' := by
    obtain ⟨a, A2, rfl⟩ := List.exists_cons_of_ne_nil hA
    rw [List.cons_append, List.head?_cons]
    intro hc
    injection hc with hc2
    have hdig := hdA a (List.mem_cons_self a A2)
    rw [hc2] at hdig
    exact absurd hdig (by decide)
  have hscan := scanDotted_digits A B C D P hA hdA hB hdB hC hdC hD hdD hP hdP
  have hcore : parseCore (A ++ ('.' :: (B ++ ('.' :: (C ++ ('.' :: (D ++ (':' :: P)))))))) =
      .ok (IPAddress.fromV4 ((((decValList A : Int) * 16777216 + (decValList B : Int) * 65536 +
          (decValList C : Int) * 256 + (decValList D : Int)).emod 4294967296).toNat),
        (((decValList P : Int)).emod 65536).toNat) := by
    unfold parseCore
    rw [if_neg hhead, hscan]
  have hip : ((((decValList A : Int)) * 16777216 + ((decValList B : Int)) * 65536 +
      ((decValList C : Int)) * 256 + ((decValList D : Int))).emod 4294967296).toNat =
      (decValList A * 16777216 + decValList B * 65536 + decValList C * 256 + decValList D) %
        4294967296 := by
    have hcast : ((decValList A : Int)) * 16777216 + ((decValList B : Int)) * 65536 +
        ((decValList C : Int)) * 256 + ((decValList D : Int)) =
        ((decValList A * 16777216 + decValList B * 65536 + decValList C * 256 +
          decValList D : Nat) : Int) := by
      push_cast
      ring
    rw [hcast, int_emod_eq_mod]
    omega
  have hport : (((decValList P : Int)).emod 65536).toNat = decValList P % 65536 := by
    rw [int_emod_eq_mod]
    omega
  show NetworkAddress.parseChars (A ++ ('.' :: (B ++ ('.' :: (C ++ ('.' :: (D ++ (':' :: P)))))))) = _
  unfold NetworkAddress.parseChars
  rw [hstrip]
  show (parseCore (A ++ ('.' :: (B ++ ('.' :: (C ++ ('.' :: (D ++ (':' :: P))))))))).map _ = _
  rw [hcore]
  show Except.ok (mkNetworkAddress _ _ true false) = _
  rw [hip, hport]

/-- Witness for C10 at "300.1.1.1:80": the first octet 300 is outside 0..255
yet parse succeeds with the wrapped 32-bit value. -/
theorem c10_no_octet_range_check_witness :
    NetworkAddress.parse ⟨['3', '0', '0'] ++ ('.' :: (['1'] ++ ('.' :: (['1'] ++
        ('.' :: (['1'] ++ (':' :: ['8', '0'])))))))⟩ =
      .ok (mkNetworkAddress
        (IPAddress.fromV4 ((decValList ['3', '0', '0'] * 16777216 +
          decValList ['1'] * 65536 + decValList ['1'] * 256 + decValList ['1']) % 4294967296))
        (decValList ['8', '0'] % 65536) true false) :=
  c10_no_octet_range_check ['3', '0', '0'] ['1'] ['1'] ['1'] ['8', '0']
    (by decide) (by decide) (by decide) (by decide) (by decide) (by decide)
    (by decide) (by decide) (by decide) (by decide) (by decide) (by decide)
    (by decide) (by decide) (by decide)

theorem isTLS_mk_t (ip : IPAddress) (p : Nat) (t : Bool) :
    (mkNetworkAddress ip p true t).isTLS = t := by
  cases t with
  | true => exact isTLS_mk_true ip p
  | false => exact isTLS_mk_false ip p

theorem mem_splitOnChar {sep c : Char} {cs : List Char} (hc : c ∈ cs) (hne : c ≠ sep) :
    ∃ p ∈ splitOnChar sep cs, c ∈ p := by
  induction cs with
  | nil => cases hc
  | cons a rest ih =>
    by_cases ha : a = sep
    · have hcr : c ∈ rest := by
        rcases List.mem_cons.mp hc with rfl | h2
        · exact absurd ha hne
        · exact h2
      obtain ⟨p, hp1, hp2⟩ := ih hcr
      refine ⟨p, ?_, hp2⟩
      simp only [splitOnChar, if_pos ha]
      exact List.mem_cons_of_mem _ hp1
    · cases hsr : splitOnChar sep rest with
      | nil => exact absurd hsr (splitOnChar_ne_nil sep rest)
      | cons h0 t0 =>
        have hsplit : splitOnChar sep (a :: rest) = (a :: h0) :: t0 := by
          simp only [splitOnChar, if_neg ha, hsr]
          rfl
        rcases List.mem_cons.mp hc with rfl | h2
        · exact ⟨c :: h0, by rw [hsplit]; exact List.mem_cons_self _ _, List.mem_cons_self c h0⟩
        · obtain ⟨p, hp1, hp2⟩ := ih h2
          rw [hsr] at hp1
          rcases List.mem_cons.mp hp1 with rfl | hp3
          · exact ⟨a :: p, by rw [hsplit]; exact List.mem_cons_self _ _,
              List.mem_cons_of_mem a hp2⟩
          · exact ⟨p, by rw [hsplit]; exact List.mem_cons_of_mem _ hp3, hp2⟩

theorem parseV4_colon {cs : List Char} (hc : (':' : Char) ∈ cs) : parseV4Chars cs = none := by
  unfold parseV4Chars
  rw [if_neg]
  intro hcond
  have hmem : ∃ p ∈ splitOnChar '.' cs, (':' : Char) ∈ p := mem_splitOnChar hc (by decide)
  obtain ⟨p, hp1, hp2⟩ := hmem
  have hall := hcond.2
  rw [List.all_eq_true] at hall
  have hok := hall p hp1
  unfold okOctet at hok
  simp only [Bool.and_eq_true, List.all_eq_true] at hok
  have := hok.1.1.2 ':' hp2
  cases this

theorem canon_mem {gs : List Nat} {c : Char} (hc : c ∈ canonGroups gs) :
    (hexDigitVal c).isSome = true ∨ c = ':' := by
  unfold canonGroups at hc
  split at hc
  · rcases List.mem_append.mp hc with h1 | h1
    · rcases mem_joinSep h1 with h2 | ⟨p, hp1, hp2⟩
      · exact Or.inr h2
      · rcases List.mem_map.mp hp1 with ⟨g, _, rfl⟩
        exact Or.inl (natToHex_mem_hex g hp2)
    · rcases List.mem_cons.mp h1 with rfl | h2
      · exact Or.inr rfl
      · rcases List.mem_cons.mp h2 with rfl | h3
        · exact Or.inr rfl
        · rcases mem_joinSep h3 with h4 | ⟨p, hp1, hp2⟩
          · exact Or.inr h4
          · rcases List.mem_map.mp hp1 with ⟨g, _, rfl⟩
            exact Or.inl (natToHex_mem_hex g hp2)
  · rcases mem_joinSep hc with h2 | ⟨p, hp1, hp2⟩
    · exact Or.inr h2
    · rcases List.mem_map.mp hp1 with ⟨g, _, rfl⟩
      exact Or.inl (natToHex_mem_hex g hp2)

theorem canon_ne_rbracket {gs : List Nat} {c : Char} (hc : c ∈ canonGroups gs) : c ≠ ']' := by
  rcases canon_mem hc with h1 | h1
  · exact hexDigitVal_ne_rbracket h1
  · rw [h1]
    decide

theorem canon_has_colon {gs : List Nat} (hlen : gs.length = 8) :
    (':' : Char) ∈ canonGroups gs := by
  unfold canonGroups
  split
  · exact List.mem_append.mpr (Or.inr (List.mem_cons_self _ _))
  · cases hm : gs.map natToHex with
    | nil =>
      have : gs = [] := List.map_eq_nil_iff.mp hm
      rw [this] at hlen
      cases hlen
    | cons p r =>
      cases r with
      | nil =>
        have h1 : gs.length = 1 := by
          have := congrArg List.length hm
          rw [List.length_map] at this
          simpa using this
        omega
      | cons q r2 => exact sep_mem_joinSep ':' p q r2

theorem stoi_natDec (port : Nat) (hport : port < 65536) :
    stoiChars (natDec port) = .ok (port : Int) := by
  obtain ⟨a, rest, hd⟩ := List.exists_cons_of_ne_nil (natDec_ne_nil port)
  have ha : isDigitChar a = true := by
    apply natDec_mem_digit port
    rw [hd]
    exact List.mem_cons_self a rest
  have hdw : (natDec port).dropWhile isSpaceChar = a :: rest := by
    rw [hd, List.dropWhile_cons, if_neg (by simp [digit_not_space ha])]
  have hsd : scanDigits (a :: rest) = some (port, []) := by
    have h0 := scanDigits_prefix (B := []) (by simp : a :: rest ≠ [])
      (by rw [← hd]; exact fun c hcm => natDec_mem_digit port hcm)
      (fun c hcm => Option.noConfusion hcm)
    rw [List.append_nil] at h0
    rw [h0, ← hd, natDec_val]
  have hnotdash : ¬(a = '-') := fun h => absurd ha (by rw [h]; decide)
  have hnotsign : ¬(a = '-' ∨ a = '+') := fun h => by
    rcases h with h1 | h1
    · exact absurd ha (by rw [h1]; decide)
    · exact absurd ha (by rw [h1]; decide)
  unfold stoiChars
  rw [hdw, stoiCore, if_neg hnotsign, hsd, stoiFinish]
  simp only [if_neg hnotdash]
  rw [if_neg (by omega : ¬((2147483647 : Int) < (port : Int) ∨ (port : Int) < -2147483648))]

theorem append_ne_nil_left {A B : List Char} (h : A ≠ []) : A ++ B ≠ [] :=
  fun hc => h (List.append_eq_nil.mp hc).1

theorem parseChars_of_core_strip {S F : List Char} {q : IPAddress × Nat} {t : Bool}
    (hstrip : stripTls S = (F, t)) (hcore : parseCore F = .ok q) :
    NetworkAddress.parseChars S = .ok (mkNetworkAddress q.1 q.2 true t) := by
  unfold NetworkAddress.parseChars
  rw [hstrip]
  show (parseCore F).map (fun p => mkNetworkAddress p.1 p.2 true t) = _
  rw [hcore]
  rfl

theorem parseCore_dotted_print (n port : Nat) (hn : n < 4294967296) (hport : port < 65536) :
    parseCore (natDec (n / 16777216 % 256) ++ ('.' :: (natDec (n / 65536 % 256) ++ ('.' ::
      (natDec (n / 256 % 256) ++ ('.' :: (natDec (n % 256) ++ (':' :: natDec port)))))))) =
      .ok (IPAddress.fromV4 n, port) := by
  have hhead : (natDec (n / 16777216 % 256) ++ ('.' :: (natDec (n / 65536 % 256) ++ ('.' ::
      (natDec (n / 256 % 256) ++ ('.' :: (natDec (n % 256) ++
        (':' :: natDec port)))))))).head? ≠ some '[' := by
    obtain ⟨a, A2, hd⟩ := List.exists_cons_of_ne_nil (natDec_ne_nil (n / 16777216 % 256))
    have hdig : isDigitChar a = true := by
      apply natDec_mem_digit (n / 16777216 % 256)
      rw [hd]
      exact List.mem_cons_self a A2
    rw [hd, List.cons_append, List.head?_cons]
    intro hc
    injection hc with hc2
    rw [hc2] at hdig
    exact absurd hdig (by decide)
  have hscan := scanDotted_digits (natDec (n / 16777216 % 256)) (natDec (n / 65536 % 256))
    (natDec (n / 256 % 256)) (natDec (n % 256)) (natDec port)
    (natDec_ne_nil _) (fun c hc => natDec_mem_digit _ hc)
    (natDec_ne_nil _) (fun c hc => natDec_mem_digit _ hc)
    (natDec_ne_nil _) (fun c hc => natDec_mem_digit _ hc)
    (natDec_ne_nil _) (fun c hc => natDec_mem_digit _ hc)
    (natDec_ne_nil _) (fun c hc => natDec_mem_digit _ hc)
  simp only [natDec_val] at hscan
  unfold parseCore
  rw [if_neg hhead, hscan]
  have hval : ((((n / 16777216 % 256 : Nat) : Int) * 16777216 +
      ((n / 65536 % 256 : Nat) : Int) * 65536 + ((n / 256 % 256 : Nat) : Int) * 256 +
      ((n % 256 : Nat) : Int)).emod 4294967296).toNat = n := by
    rw [int_emod_eq_mod]
    omega
  have hp : (((port : Nat) : Int).emod 65536).toNat = port := by
    rw [int_emod_eq_mod]
    omega
  show Except.ok (IPAddress.fromV4 ((((n / 16777216 % 256 : Nat) : Int) * 16777216 +
      ((n / 65536 % 256 : Nat) : Int) * 65536 + ((n / 256 % 256 : Nat) : Int) * 256 +
      ((n % 256 : Nat) : Int)).emod 4294967296).toNat,
    (((port : Nat) : Int).emod 65536).toNat) = _
  rw [hval, hp]

theorem roundtrip_v4 (n port : Nat) (hn : n < 4294967296) (hport : port < 65536) (t : Bool) :
    NetworkAddress.parseChars
        ((mkNetworkAddress (IPAddress.fromV4 n) port true t).toStringChars) =
      .ok (mkNetworkAddress (IPAddress.fromV4 n) port true t) := by
  have hmod : port % 65536 = port := Nat.mod_eq_of_lt hport
  have hip_str : (IPAddress.fromV4 n).toStringChars =
      natDec (n / 16777216 % 256) ++ '.' :: natDec (n / 65536 % 256) ++
        '.' :: natDec (n / 256 % 256) ++ '.' :: natDec (n % 256) := by
    show natDec ((IPAddress.fromV4 n).toV4 / 16777216 % 256) ++
        '.' :: natDec ((IPAddress.fromV4 n).toV4 / 65536 % 256) ++
        '.' :: natDec ((IPAddress.fromV4 n).toV4 / 256 % 256) ++
        '.' :: natDec ((IPAddress.fromV4 n).toV4 % 256) = _
    rw [toV4_fromV4 n hn]
  have hcore := parseCore_dotted_print n port hn hport
  obtain ⟨pl, hpl, hplmem⟩ : ∃ c, (natDec port).getLast? = some c ∧ c ∈ natDec port :=
    ⟨(natDec port).getLast (natDec_ne_nil port), List.getLast_mem_getLast? _,
      List.getLast_mem _⟩
  have hlast : (natDec (n / 16777216 % 256) ++ ('.' :: (natDec (n / 65536 % 256) ++ ('.' ::
      (natDec (n / 256 % 256) ++ ('.' :: (natDec (n % 256) ++
        (':' :: natDec port)))))))).getLast? = some pl := by
    rw [getLast?_chain _ (append_ne_nil_left (natDec_ne_nil _)),
      getLast?_chain _ (append_ne_nil_left (natDec_ne_nil _)),
      getLast?_chain _ (append_ne_nil_left (natDec_ne_nil _)),
      getLast?_chain _ (natDec_ne_nil _)]
    exact hpl
  have hS : (mkNetworkAddress (IPAddress.fromV4 n) port true t).toStringChars =
      (natDec (n / 16777216 % 256) ++ ('.' :: (natDec (n / 65536 % 256) ++ ('.' ::
        (natDec (n / 256 % 256) ++ ('.' :: (natDec (n % 256) ++
          (':' :: natDec port)))))))) ++ (if t = true then [':', 't', 'l', 's'] else []) := by
    unfold NetworkAddress.toStringChars
    rw [isTLS_mk_t,
      show (mkNetworkAddress (IPAddress.fromV4 n) port true t).ip = IPAddress.fromV4 n from rfl,
      show (IPAddress.fromV4 n).isV6addr = false from rfl,
      show (mkNetworkAddress (IPAddress.fromV4 n) port true t).port = port % 65536 from rfl,
      hip_str, hmod]
    simp [List.append_assoc, List.cons_append]
  cases t with
  | false =>
    rw [hS, show (if (false : Bool) = true then [':', 't', 'l', 's'] else ([] : List Char)) =
      ([] : List Char) from rfl, List.append_nil]
    exact parseChars_of_core_strip
      (stripTls_of_last_digit hlast (natDec_mem_digit port hplmem)) hcore
  | true =>
    rw [hS, show (if (true : Bool) = true then [':', 't', 'l', 's'] else ([] : List Char)) =
      [':', 't', 'l', 's'] from rfl]
    exact parseChars_of_core_strip
      (stripTls_append_tls (append_ne_nil_left (natDec_ne_nil _))) hcore

theorem append_cons_ne_nil {A Y : List Char} {x : Char} : A ++ (x :: Y) ≠ [] := by
  intro hc
  have := (List.append_eq_nil.mp hc).2
  cases this

theorem parseCore_bracket {T inside portStr : List Char} {port : Int} {ip : IPAddress}
    (htake : T.takeWhile (fun c => c != ']') = inside)
    (hdrop : T.dropWhile (fun c => c != ']') = ']' :: ':' :: portStr)
    (hstoi : stoiChars portStr = .ok port)
    (hip : IPAddress.parseChars inside = some ip) :
    parseCore ('[' :: T) = .ok (ip, (port.emod 65536).toNat) := by
  unfold parseCore
  simp only [List.head?_cons, List.tail_cons]
  rw [hdrop, htake]
  simp only [List.tail_cons, List.head?_cons, hstoi, hip]
  simp

theorem roundtrip_v6 (gs : List Nat) (port : Nat) (hlen : gs.length = 8)
    (hb : ∀ g ∈ gs, g < 65536) (hport : port < 65536) (t : Bool) :
    NetworkAddress.parseChars
        ((mkNetworkAddress (IPAddress.fromV6 (groupsToBytes gs)) port true t).toStringChars) =
      .ok (mkNetworkAddress (IPAddress.fromV6 (groupsToBytes gs)) port true t) := by
  have hmod : port % 65536 = port := Nat.mod_eq_of_lt hport
  have hipstr : (IPAddress.fromV6 (groupsToBytes gs)).toStringChars = canonGroups gs := by
    show canonGroups (bytesToGroups (IPAddress.fromV6 (groupsToBytes gs)).store) = _
    rw [show (IPAddress.fromV6 (groupsToBytes gs)).store = groupsToBytes gs from rfl,
      bytesToGroups_groupsToBytes gs hb]
  have hsplit := takeWhile_all_append (p := fun c => c != ']') (A := canonGroups gs)
    (B := ']' :: (':' :: natDec port))
    (fun c hc => bne_iff_ne.mpr (canon_ne_rbracket hc))
    (fun c hc => by
      simp only [List.head?_cons, Option.some.injEq] at hc
      rw [← hc]
      decide)
  have hstoi := stoi_natDec port hport
  have hipparse : IPAddress.parseChars (canonGroups gs) =
      some (IPAddress.fromV6 (groupsToBytes gs)) := by
    unfold IPAddress.parseChars
    rw [parseV4_colon (canon_has_colon hlen), parseV6_canon gs hlen hb]
  have hcore : parseCore ('[' :: (canonGroups gs ++ (']' :: (':' :: natDec port)))) =
      .ok (IPAddress.fromV6 (groupsToBytes gs), (((port : Nat) : Int).emod 65536).toNat) :=
    parseCore_bracket hsplit.1 hsplit.2 hstoi hipparse
  have hptn : (((port : Nat) : Int).emod 65536).toNat = port := by
    rw [int_emod_eq_mod]
    omega
  rw [hptn] at hcore
  obtain ⟨pl, hpl, hplmem⟩ : ∃ c, (natDec port).getLast? = some c ∧ c ∈ natDec port :=
    ⟨(natDec port).getLast (natDec_ne_nil port), List.getLast_mem_getLast? _,
      List.getLast_mem _⟩
  have hlast : (('[' : Char) :: (canonGroups gs ++ (']' :: (':' :: natDec port)))).getLast? =
      some pl := by
    rw [getLast?_cons_ne_nil append_cons_ne_nil,
      getLast?_chain _ (by simp : (':' : Char) :: natDec port ≠ []),
      getLast?_cons_ne_nil (natDec_ne_nil port)]
    exact hpl
  have hS : (mkNetworkAddress (IPAddress.fromV6 (groupsToBytes gs)) port true t).toStringChars =
      (('[' : Char) :: (canonGroups gs ++ (']' :: (':' :: natDec port)))) ++
        (if t = true then [':', 't', 'l', 's'] else []) := by
    unfold NetworkAddress.toStringChars
    rw [isTLS_mk_t,
      show (mkNetworkAddress (IPAddress.fromV6 (groupsToBytes gs)) port true t).ip =
        IPAddress.fromV6 (groupsToBytes gs) from rfl,
      show (IPAddress.fromV6 (groupsToBytes gs)).isV6addr = true from rfl,
      show (mkNetworkAddress (IPAddress.fromV6 (groupsToBytes gs)) port true t).port =
        port % 65536 from rfl,
      hipstr, hmod]
    simp [List.append_assoc, List.cons_append]
  cases t with
  | false =>
    rw [hS, show (if (false : Bool) = true then [':', 't', 'l', 's'] else ([] : List Char)) =
      ([] : List Char) from rfl, List.append_nil]
    exact parseChars_of_core_strip
      (stripTls_of_last_digit hlast (natDec_mem_digit port hplmem)) hcore
  | true =>
    rw [hS, show (if (true : Bool) = true then [':', 't', 'l', 's'] else ([] : List Char)) =
      [':', 't', 'l', 's'] from rfl]
    exact parseChars_of_core_strip (stripTls_append_tls (by simp)) hcore

/-- C1: round trip.  Every NetworkAddress value producible by parse is
recovered exactly by parsing its textual form: v6 addresses are printed in
brackets (canonically compressed), v4 addresses bare, the port after a colon,
and the ":tls" suffix exactly when the TLS flag is set. -/
theorem c1_roundtrip (s : String) (x : NetworkAddress)
    (h : NetworkAddress.parse s = .ok x) :
    NetworkAddress.parse x.toString = .ok x := by
  obtain ⟨q, hq, hx⟩ := parseChars_ok_shape h
  obtain ⟨hport, hip⟩ := parseCore_ok_shape hq
  show NetworkAddress.parseChars x.toString.data = .ok x
  have hdata : x.toString.data = x.toStringChars := rfl
  rw [hdata, hx]
  rcases hip with ⟨n, hn, hq1⟩ | ⟨gs, hlen, hb, hq1⟩
  · rw [hq1]
    exact roundtrip_v4 n q.2 hn hport _
  · rw [hq1]
    exact roundtrip_v6 gs q.2 hlen hb hport _

/-- Witness for C1 at the value parsed from "1.2.3.4:80". -/
theorem c1_roundtrip_witness :
    NetworkAddress.parse
        (NetworkAddress.toString { ip := IPAddress.fromV4 16909060, port := 80, flags := 0 }) =
      .ok { ip := IPAddress.fromV4 16909060, port := 80, flags := 0 } :=
  c1_roundtrip ("1.2.3.4:80") { ip := IPAddress.fromV4 16909060, port := 80, flags := 0 }
    (by rfl)

/-- First assertion of the repository test /flow/network/ipaddress. -/
theorem testcase_loopback :
    (NetworkAddress.parse ("[::1]:4800")).map NetworkAddress.toString =
      .ok ("[::1]:4800") := by
  rfl

/-- Second assertion of the repository test: canonical compression of the
printed form. -/
theorem testcase_compress :
    (NetworkAddress.parse ("[2001:0db8:85a3:0000:0000:8a2e:0370:7334]:4800")).map
      NetworkAddress.toString = .ok ("[2001:db8:85a3::8a2e:370:7334]:4800") := by
  rfl

/-- Third assertion of the repository test: the TLS variant. -/
theorem testcase_compress_tls :
    (NetworkAddress.parse ("[2001:0db8:85a3:0000:0000:8a2e:0370:7334]:4800:tls")).map
      NetworkAddress.toString = .ok ("[2001:db8:85a3::8a2e:370:7334]:4800:tls") := by
  rfl

/-- Spec scenario 4: a plain dotted-quad endpoint. -/
theorem testcase_v4 :
    (NetworkAddress.parse ("127.0.0.1:4500")).map NetworkAddress.toString =
      .ok ("127.0.0.1:4500") := by
  rfl

/-- Spec scenario 5: trailing content after the port in the dotted form is
rejected. -/
theorem testcase_trailing :
    NetworkAddress.parse ("1.2.3.4:80:extra") = .error .connectionStringInvalid := by
  rfl
